import Mathlib

/-!
The SCP argument parser of diego-ssh (`cf-plugin/options/scp_options.go`) and
the realm parser and authentication dispatcher of its SSH proxy.

A shallow embedding of `ParseLocation`, its helpers `splitFirstUnescapedColon`
and `splitHostIndex`, and of `SCPOptions.Parse`, with the properties the
specification states about them.

Modelling conventions.

* A Go `string` is a `List Char`.  Every byte the parser inspects (`:`, `\`,
  `/`, the decimal digits) is ASCII, and no byte of a multi-byte UTF-8 sequence
  is ASCII, so scanning code points finds the same separators as scanning bytes.
* A Go function that returns `(value, error)` returns an `Outcome`: `ok value`,
  `error err`, or `panic` when an index or slice expression is out of range.
* The standard-library functions `strings.Replace`, `strings.Split` and
  `strconv.ParseUint` are modelled from their documented behaviour.
* `getopt.Set.Getopt` (package `github.com/pborman/getopt`) is a parameter of
  `SCPOptions.Parse`; `getoptSet.Getopt` is its model for the option set that
  `NewSCPOptions` builds.
* The realm parser and the authentication dispatcher of the SSH proxy are
  modelled from the specification; their definitions say so.
-/

namespace DiegoSSH

/-- A Go string. -/
abbrev Str := List Char

/-- The error values the package produces.  `UsageError` is the package-level
sentinel, `New msg` is `errors.New(msg)`, `invalidHostIndexFormat arg` is
`fmt.Errorf("invalid host/index format: %q", arg)`, and `unknownOption c` is
the error of the option parser for an option character that is not registered. -/
inductive GoError where
  | UsageError
  | New (msg : String)
  | invalidHostIndexFormat (arg : Str)
  | unknownOption (c : Char)
  deriving DecidableEq, Repr

/-- Result of a Go call: a value, an error, or a run-time panic. -/
inductive Outcome (α : Type) where
  | ok (v : α)
  | error (err : GoError)
  | panic
  deriving DecidableEq, Repr

/-! ## Standard library -/

namespace strings

/-- Scan of `strings.Replace(s, old, new, -1)` for a non-empty `old`: the first
argument counts the characters of a matched occurrence still to be skipped. -/
def Replace.scan (old new : Str) : Nat → Str → Str
  | _, [] => []
  | skip + 1, _ :: cs => Replace.scan old new skip cs
  | 0, c :: cs =>
    if old.isPrefixOf (c :: cs) then new ++ Replace.scan old new (old.length - 1) cs
    else c :: Replace.scan old new 0 cs

/-- Go `strings.Replace(s, old, new, -1)`: every non-overlapping occurrence of
`old`, found from left to right, is replaced by `new`.  An empty `old` matches
before every character and at the end. -/
def Replace (s old new : Str) : Str :=
  if old = new then s
  else if old = [] then new ++ s.flatMap (fun c => c :: new)
  else Replace.scan old new 0 s

/-- Scan of `strings.Split(s, sep)` for a non-empty `sep`; the first argument
counts the characters of a matched separator still to be skipped. -/
def Split.scan (sep : Str) : Nat → Str → List Str
  | _, [] => [[]]
  | skip + 1, _ :: cs => Split.scan sep skip cs
  | 0, c :: cs =>
    if sep.isPrefixOf (c :: cs) then [] :: Split.scan sep (sep.length - 1) cs
    else
      match Split.scan sep 0 cs with
      | p :: ps => (c :: p) :: ps
      | [] => [[c]]

/-- Go `strings.Split(s, sep)`: the substrings of `s` between the occurrences
of `sep`.  An empty `sep` splits after every character. -/
def Split (s sep : Str) : List Str :=
  if sep = [] then s.map (fun c => [c]) else Split.scan sep 0 s

end strings

namespace strconv

/-- Value of one digit in `strconv.ParseUint`: `0-9`, then `a-z` and `A-Z`
from ten on; `none` for any other character. -/
def digitValue (d : Char) : Option Nat :=
  if '0' ≤ d ∧ d ≤ '9' then some (d.toNat - '0'.toNat)
  else if 'a' ≤ d ∧ d ≤ 'z' then some (d.toNat - 'a'.toNat + 10)
  else if 'A' ≤ d ∧ d ≤ 'Z' then some (d.toNat - 'A'.toNat + 10)
  else none

/-- The digit loop of `strconv.ParseUint`; `n` is the `uint64` accumulator. -/
def ParseUint.loop (base cutoff maxVal : Nat) : Nat → Str → Option Nat
  | n, [] => some n
  | n, d :: s =>
    match digitValue d with
    | none => none
    | some v =>
      if v ≥ base then none
      else if n ≥ cutoff then none
      else
        let n0 := (n * base) % 2 ^ 64
        let n1 := (n0 + v) % 2 ^ 64
        if n1 < n0 ∨ n1 > maxVal then none
        else ParseUint.loop base cutoff maxVal n1 s

/-- Go `strconv.ParseUint(s, base, bitSize)` for an explicit base between 2 and
36 and a bit size between 1 and 64; `none` stands for a returned error (syntax
or range). -/
def ParseUint (s : Str) (base bitSize : Nat) : Option Nat :=
  if s = [] then none
  else if base < 2 ∨ 36 < base then none
  else if bitSize < 1 ∨ 64 < bitSize then none
  else ParseUint.loop base ((2 ^ 64 - 1) / base + 1) (2 ^ bitSize - 1) 0 s

end strconv

/-! ## `scp_options.go` -/

/-- Go `FileLocation`; an empty `AppName` is for a local path. -/
structure FileLocation where
  AppName : Str := []
  Index : Nat := 0
  Path : Str := []
  deriving DecidableEq, Repr

/-- Go `SCPOptions`, without the handles into the option parser. -/
structure SCPOptions where
  Sources : List FileLocation := []
  Target : FileLocation := {}
  Verbose : Bool := false
  PreserveAttributes : Bool := false
  Recurse : Bool := false
  deriving DecidableEq, Repr

/-- What a call of `getoptSet.Getopt(args, nil)` leaves behind: the returned
error, the values of the three bound flag variables, and `opts.Args()`. -/
structure GetoptResult where
  err : Option GoError
  Verbose : Bool
  PreserveAttributes : Bool
  Recurse : Bool
  Args : List Str
  deriving DecidableEq, Repr

/-- The `for i := 1; i < len(arg); i++` loop of `splitFirstUnescapedColon`.
The list argument is `arg[i:]`, so the loop condition `i < len(arg)` holds
exactly when it is non-empty. -/
def splitFirstUnescapedColon.loop (arg : Str) : Nat → Str → Outcome (List Str)
  | _, [] => .ok [arg]
  | i, _ :: rest =>
    match arg[i]?, arg[i - 1]? with
    | some c, some p =>
      if c ≠ ':' then splitFirstUnescapedColon.loop arg (i + 1) rest
      else if p = '\\' then splitFirstUnescapedColon.loop arg (i + 1) rest
      else if i ≤ arg.length ∧ i + 1 ≤ arg.length then .ok [arg.take i, arg.drop (i + 1)]
      else .panic
    | _, _ => .panic

/-- Go `splitFirstUnescapedColon`. -/
def splitFirstUnescapedColon (arg : Str) : Outcome (List Str) :=
  splitFirstUnescapedColon.loop arg 1 (arg.drop 1)

/-- Go `uint(index)` for a `uint64`; `uint` is 32 or 64 bits wide and the
narrower width is taken. -/
def toUint (index : Nat) : Nat := index % 2 ^ 32

/-- Go `splitHostIndex`. -/
def splitHostIndex (arg : Str) : Outcome (Str × Nat) :=
  match strings.Split arg "/".toList with
  | [_] => .ok (arg, 0)
  | [p0, p1] =>
    match strconv.ParseUint p1 10 32 with
    | none => .ok (arg, 0)
    | some index => .ok (p0, toUint index)
  | _ => .error (.invalidHostIndexFormat arg)

/-- Go `ParseLocation`. -/
def ParseLocation (arg : Str) : Outcome FileLocation :=
  match splitFirstUnescapedColon arg with
  | .panic => .panic
  | .error err => .error err
  | .ok parts =>
    match parts with
    | [p0, p1] =>
      match splitHostIndex p0 with
      | .panic => .panic
      | .error err => .error err
      | .ok (host, index) =>
        .ok { AppName := host, Index := index,
              Path := strings.Replace p1 "\\:".toList ":".toList }
    | _ => .ok { Path := strings.Replace arg "\\:".toList ":".toList }

/-- The `for _, arg := range args` loop of `parseLocations`; `locs` is the
slice appended to. -/
def SCPOptions.parseLocations.loop (locs : List FileLocation) :
    List Str → Outcome (List FileLocation)
  | [] => .ok locs
  | arg :: args =>
    match ParseLocation arg with
    | .panic => .panic
    | .error err => .error err
    | .ok location => SCPOptions.parseLocations.loop (locs ++ [location]) args

/-- Go `(*SCPOptions).parseLocations`. -/
def SCPOptions.parseLocations (args : List Str) : Outcome (List FileLocation) :=
  SCPOptions.parseLocations.loop [] args

/-- Go `(*SCPOptions).Parse`: the options after the call and what the call
returned (`ok ()` for a nil error).  `Getopt` is the option parser, which sees
the options and the argument list. -/
def SCPOptions.Parse (Getopt : SCPOptions → List Str → GetoptResult)
    (o : SCPOptions) (args : List Str) : SCPOptions × Outcome Unit :=
  if args.length < 1 ∨ args.head? ≠ some "scp".toList then (o, .error .UsageError)
  else
    let r := Getopt o args
    let o1 : SCPOptions :=
      { o with Verbose := r.Verbose, PreserveAttributes := r.PreserveAttributes,
               Recurse := r.Recurse }
    match r.err with
    | some err => (o1, .error err)
    | none =>
      if r.Args.length < 2 then (o1, .error (.New "Source and target must be provided"))
      else
        match SCPOptions.parseLocations r.Args with
        | .panic => (o1, .panic)
        | .error err => (o1, .error err)
        | .ok locs =>
          if locs.length < 1 then (o1, .panic)
          else
            match locs[locs.length - 1]? with
            | none => (o1, .panic)
            | some target =>
              ({ o1 with Sources := locs.take (locs.length - 1), Target := target }, .ok ())

/-! ## The option set of `NewSCPOptions`

`NewSCPOptions` registers three boolean short options, `-v`, `-p` and `-r`,
bound to `Verbose`, `PreserveAttributes` and `Recurse`, and no long option.
`getoptSet.Getopt` is `getopt.Set.Getopt` of `github.com/pborman/getopt` on
that set, modelled from the documented behaviour of the library: the element
after the command name is an option group while it starts with `-` and is
neither `-` nor `--`; `--` ends the options and is dropped; the first other
element ends them and stays. -/

/-- Go `NewSCPOptions`: all fields zero. -/
def NewSCPOptions : SCPOptions := {}

/-- Short option processing of one group `-abc`; the list is the group without
its dash.  A boolean option sets its variable; any other character is an
unknown option. -/
def getoptSet.shortParsing (r : GetoptResult) : Str → GetoptResult
  | [] => r
  | c :: cs =>
    if c = 'v' then getoptSet.shortParsing { r with Verbose := true } cs
    else if c = 'p' then getoptSet.shortParsing { r with PreserveAttributes := true } cs
    else if c = 'r' then getoptSet.shortParsing { r with Recurse := true } cs
    else { r with err := some (.unknownOption c) }

/-- The `for len(args) > 0` loop of `Getopt`; `Args` of the result is what
`opts.Args()` returns afterwards. -/
def getoptSet.loop (r : GetoptResult) : List Str → GetoptResult
  | [] => { r with Args := [] }
  | arg :: args =>
    if arg = [] ∨ arg.head? ≠ some '-' then { r with Args := arg :: args }
    else if arg = "-".toList then { r with Args := arg :: args }
    else if arg = "--".toList then { r with Args := args }
    else
      let r1 := getoptSet.shortParsing { r with Args := arg :: args } (arg.drop 1)
      match r1.err with
      | some _ => r1
      | none => getoptSet.loop r1 args

/-- The option parser of `NewSCPOptions`: `getoptSet.Getopt(args, nil)`, whose
bound variables are the three flags of `o`. -/
def getoptSet.Getopt (o : SCPOptions) (args : List Str) : GetoptResult :=
  match args with
  | [] => ⟨none, o.Verbose, o.PreserveAttributes, o.Recurse, []⟩
  | _ :: args => getoptSet.loop ⟨none, o.Verbose, o.PreserveAttributes, o.Recurse, []⟩ args

/-! ## Vocabulary of the specification -/

/-- Position `i` of `arg` holds a separator colon: a `:` that is not the first
character and whose preceding character is not a backslash. -/
def IsSeparator (arg : Str) (i : Nat) : Prop :=
  1 ≤ i ∧ arg[i]? = some ':' ∧ arg[i - 1]? ≠ some '\\'

instance (arg : Str) (i : Nat) : Decidable (IsSeparator arg i) := by
  unfold IsSeparator; infer_instance

/-- Position `i` holds the first separator colon of `arg`. -/
def FirstSeparator (arg : Str) (i : Nat) : Prop :=
  IsSeparator arg i ∧ ∀ j < i, ¬ IsSeparator arg j

instance (arg : Str) (i : Nat) : Decidable (FirstSeparator arg i) := by
  unfold FirstSeparator; infer_instance

/-- The decimal numeral of `n`, without leading zeros. -/
def decimal (n : Nat) : Str := Nat.toDigits 10 n

/-- Value of a string of decimal digits read from the left, starting from the
value `acc` of the digits already read. -/
def digitsValue (acc : Nat) (s : Str) : Nat :=
  s.foldl (fun n c => n * 10 + (c.toNat - 48)) acc

/-- The argument with every `\:` replaced by `:`. -/
def unescapeColons (s : Str) : Str := strings.Replace s "\\:".toList ":".toList

/-- The file name with every `:` replaced by `\:`. -/
def escapeColons (s : Str) : Str := strings.Replace s ":".toList "\\:".toList

/-! ## The SSH proxy: realm parser and authentication dispatcher

The proxy is exercised by `cmd/ssh-proxy/main_test.go`; its realm parser, its
realm authenticators and its dispatcher are modelled from sections 3, 4.A, 4.E
and 4.F of the specification.  A call of an upstream service is an entry in
the list of requests that an authentication returns. -/

/-- Modelled from the spec: the realm of a `RealmAddress` (section 3), whose
declaration is missing.  The user-at form carries the captured user name. -/
inductive Realm where
  | diego
  | cf
  | userAt (user : Str)
  deriving DecidableEq, Repr

/-- Modelled from the spec: `RealmAddress` (section 3), whose declaration is
missing: realm, principal, and a non-negative index. -/
structure RealmAddress where
  realm : Realm
  principal : Str
  index : Nat
  deriving DecidableEq, Repr

/-- Modelled from the spec: the canonical user form of a `RealmAddress`
(section 3), `<realm>:<principal>/<index>` or `<user>@<principal>/<index>`;
the serializer is missing. -/
def RealmAddress.serialize (a : RealmAddress) : Str :=
  match a.realm with
  | .diego => "diego:".toList ++ a.principal ++ "/".toList ++ decimal a.index
  | .cf => "cf:".toList ++ a.principal ++ "/".toList ++ decimal a.index
  | .userAt user => user ++ "@".toList ++ a.principal ++ "/".toList ++ decimal a.index

/-- Modelled from the spec: the shapes the realm parser of section 4.A
accepts, stated without the parser, which is missing: `s` is
`<token>:<principal>/<index>` with the token `diego` or `cf`, or
`<user>@<principal>/<index>` with a non-empty user without `:`, and the index
is a non-empty string of decimal digits. -/
def MatchesRealmForm (s : Str) : Prop :=
  ∃ principal digits : Str, digits ≠ [] ∧ (∀ c ∈ digits, c.isDigit = true) ∧
    (s = "diego:".toList ++ principal ++ "/".toList ++ digits ∨
     s = "cf:".toList ++ principal ++ "/".toList ++ digits ∨
     ∃ user : Str, user ≠ [] ∧ ':' ∉ user ∧
       s = user ++ "@".toList ++ principal ++ "/".toList ++ digits)

namespace RealmParser

/-- Modelled from the spec: the cut of `<principal>/<index>` (section 4.A),
part of the missing realm parser.  An index holds no `/`, so the cut is at the
last `/`. -/
def splitLastSlash : Str → Option (Str × Str)
  | [] => none
  | c :: cs =>
    match splitLastSlash cs with
    | some (p, t) => some (c :: p, t)
    | none => if c = '/' then some ([], cs) else none

/-- Modelled from the spec: "index must parse as a non-negative integer"
(section 4.A), part of the missing realm parser: a non-empty string of decimal
digits, read as its value. -/
def parseIndex (t : Str) : Option Nat :=
  if t ≠ [] ∧ ∀ c ∈ t, c.isDigit = true then some (digitsValue 0 t) else none

/-- Modelled from the spec: `<principal>/<index>` with the required index
suffix (section 4.A), part of the missing realm parser. -/
def parsePrincipalIndex (s : Str) : Option (Str × Nat) :=
  match splitLastSlash s with
  | none => none
  | some (p, t) =>
    match parseIndex t with
    | none => none
    | some n => some (p, n)

/-- Modelled from the spec: the form `<token>:<principal>/<index>` for one
token (section 4.A), part of the missing realm parser. -/
def tokenForm (token : Str) (realm : Realm) (s : Str) : Option RealmAddress :=
  if (token ++ ":".toList).isPrefixOf s then
    match parsePrincipalIndex (s.drop (token ++ ":".toList).length) with
    | none => none
    | some (p, n) => some ⟨realm, p, n⟩
  else none

/-- Modelled from the spec: the cut of a string at its first `@`, part of the
missing realm parser (section 4.A). -/
def splitFirstAt : Str → Option (Str × Str)
  | [] => none
  | c :: cs =>
    if c = '@' then some ([], cs)
    else
      match splitFirstAt cs with
      | none => none
      | some (u, r) => some (c :: u, r)

/-- Modelled from the spec: the cut of `<user>@<principal>/<index>` into the
user and the rest (section 4.A), part of the missing realm parser.  The user
is non-empty, and 4.A does not say which `@` separates: the first `@` after the
first character is taken, the cut that accepts every string of the form. -/
def splitUserAt : Str → Option (Str × Str)
  | [] => none
  | c :: cs =>
    match splitFirstAt cs with
    | none => none
    | some (u, r) => some (c :: u, r)

/-- Modelled from the spec: the form `<user>@<principal>/<index>` with a
non-empty user without embedded `:` (section 4.A), part of the missing realm
parser. -/
def userAtForm (s : Str) : Option RealmAddress :=
  match splitUserAt s with
  | none => none
  | some (user, rest) =>
    if user ≠ [] ∧ ':' ∉ user then
      match parsePrincipalIndex rest with
      | none => none
      | some (p, n) => some ⟨.userAt user, p, n⟩
    else none

/-- Modelled from the spec: the realm parser of section 4.A, whose source is
missing.  The token forms are tried first, then the user-at form; every other
shape is rejected. -/
def parse (s : Str) : Option RealmAddress :=
  match tokenForm "diego".toList .diego s with
  | some a => some a
  | none =>
    match tokenForm "cf".toList .cf s with
    | some a => some a
    | none => userAtForm s

end RealmParser

/-- Modelled from the spec: a valid `RealmAddress`, whose declaration is
missing.  Section 3 defines a `RealmAddress` as what is parsed from the SSH
user field, so an address is valid when the realm parser yields it for some
user field. -/
def RealmAddress.Valid (a : RealmAddress) : Prop :=
  ∃ s : Str, RealmParser.parse s = some a

/-- Modelled from the spec: `TargetDescriptor` (section 3), whose declaration
is missing. -/
structure TargetDescriptor where
  address : Str
  hostFingerprint : Str
  user : Str
  privateKey : Str
  deriving DecidableEq, Repr

/-- Modelled from the spec: `SSHRoute` (section 3), whose declaration is
missing. -/
structure SSHRoute where
  containerPort : Nat
  privateKey : Str
  hostFingerprint : Str
  deriving DecidableEq, Repr

/-- Modelled from the spec: `InstanceRecord` (section 3), whose declaration is
missing; a port mapping is container port and host port. -/
structure InstanceRecord where
  processGuid : Str
  index : Nat
  instanceGuid : Str
  address : Str
  ports : List (Nat × Nat)
  deriving DecidableEq, Repr

/-- Modelled from the spec: `TokenResponse` (section 3), whose declaration is
missing. -/
structure TokenResponse where
  accessToken : Str
  tokenType : Str
  deriving DecidableEq, Repr

/-- Modelled from the spec: one call of an upstream service (sections 4.B,
4.C and 4.D), whose clients are missing. -/
inductive Request where
  | getDesired (processGuid : Str)
  | getActual (processGuid : Str) (index : Nat)
  | checkSSHAccess (appGuid authHeader : Str)
  | exchangeCredentials (username password : Str)
  deriving DecidableEq, Repr

/-- Modelled from the spec: the answers of the cluster state, app
authorization and token exchange services (sections 4.B, 4.C and 4.D), whose
clients are missing; `none` is any failure. -/
structure Services where
  GetDesired : Str → Option SSHRoute
  GetActual : Str → Nat → Option InstanceRecord
  CheckSSHAccess : Str → Str → Option Str
  ExchangeCredentials : Str → Str → Option TokenResponse

/-- Modelled from the spec: the process configuration the dispatcher reads
(section 6), whose declaration is missing; `containerUser` is the fixed login
name of the second hop. -/
structure ProxyConfig where
  enableDiegoAuth : Bool
  enableCFAuth : Bool
  ccAPIURL : Option Str
  uaaURL : Option Str
  containerUser : Str

/-- Modelled from the spec: the outcome of one password authentication
(section 4.F), whose source is missing: the target descriptor on success, the
requests made to upstream services in order, and the failure records logged
(each the user field). -/
structure AuthResult where
  descriptor : Option TargetDescriptor
  requests : List Request
  log : List Str
  deriving DecidableEq, Repr

/-- Modelled from the spec: the Diego authenticator (section 4.E), whose
source is missing: desired lookup, then actual lookup, then the port mapping
of the route's container port. -/
def DiegoAuthenticator.Authenticate (cfg : ProxyConfig) (svc : Services)
    (processGuid : Str) (index : Nat) : Option TargetDescriptor × List Request :=
  match svc.GetDesired processGuid with
  | none => (none, [.getDesired processGuid])
  | some route =>
    match svc.GetActual processGuid index with
    | none => (none, [.getDesired processGuid, .getActual processGuid index])
    | some inst =>
      match inst.ports.find? (fun m => m.1 = route.containerPort) with
      | none => (none, [.getDesired processGuid, .getActual processGuid index])
      | some m =>
        (some { address := inst.address ++ ":".toList ++ decimal m.2,
                hostFingerprint := route.hostFingerprint,
                user := cfg.containerUser,
                privateKey := route.privateKey },
          [.getDesired processGuid, .getActual processGuid index])

/-- Modelled from the spec: the CF authenticator (section 4.E), whose source
is missing: the access check, then the Diego lookups with the returned process
id and the original index. -/
def CFAuthenticator.Authenticate (cfg : ProxyConfig) (svc : Services)
    (appGuid : Str) (index : Nat) (authHeader : Str) :
    Option TargetDescriptor × List Request :=
  match svc.CheckSSHAccess appGuid authHeader with
  | none => (none, [.checkSSHAccess appGuid authHeader])
  | some processGuid =>
    let r := DiegoAuthenticator.Authenticate cfg svc processGuid index
    (r.1, .checkSSHAccess appGuid authHeader :: r.2)

/-- Modelled from the spec: the user-at authenticator (section 4.E), whose
source is missing: the token exchange, then the CF logic with the header
`<tokenType> <accessToken>`. -/
def UserAtAuthenticator.Authenticate (cfg : ProxyConfig) (svc : Services)
    (user appGuid : Str) (index : Nat) (password : Str) :
    Option TargetDescriptor × List Request :=
  match svc.ExchangeCredentials user password with
  | none => (none, [.exchangeCredentials user password])
  | some token =>
    let r := CFAuthenticator.Authenticate cfg svc appGuid index
      (token.tokenType ++ " ".toList ++ token.accessToken)
    (r.1, .exchangeCredentials user password :: r.2)

/-- Modelled from the spec: the enable flag of a realm (section 4.E), read by
the missing dispatcher: `enableDiegoAuth` for `diego`, `enableCFAuth` for `cf`
and for the user-at form. -/
def Realm.enableFlag (cfg : ProxyConfig) : Realm → Bool
  | .diego => cfg.enableDiegoAuth
  | .cf => cfg.enableCFAuth
  | .userAt _ => cfg.enableCFAuth

/-- Modelled from the spec: whether the authenticator of a realm is enabled
(section 4.E), read by the missing dispatcher: its flag, and for `cf` the app
authorization URL, for the user-at form also the token exchange URL. -/
def Realm.enabled (cfg : ProxyConfig) : Realm → Bool
  | .diego => cfg.enableDiegoAuth
  | .cf => cfg.enableCFAuth && cfg.ccAPIURL.isSome
  | .userAt _ => cfg.enableCFAuth && cfg.ccAPIURL.isSome && cfg.uaaURL.isSome

/-- Modelled from the spec: the authentication dispatcher (section 4.F), whose
source is missing.  The user is parsed; a parse failure, or a realm that is
not enabled, fails without any realm logic; otherwise the realm authenticator
runs, and a failure is logged with the user field. -/
def Dispatcher.Authenticate (cfg : ProxyConfig) (svc : Services)
    (user password : Str) : AuthResult :=
  match RealmParser.parse user with
  | none => { descriptor := none, requests := [], log := [user] }
  | some addr =>
    if addr.realm.enabled cfg = false then
      { descriptor := none, requests := [], log := [user] }
    else
      let r :=
        match addr.realm with
        | .diego => DiegoAuthenticator.Authenticate cfg svc addr.principal addr.index
        | .cf => CFAuthenticator.Authenticate cfg svc addr.principal addr.index password
        | .userAt u =>
          UserAtAuthenticator.Authenticate cfg svc u addr.principal addr.index password
      match r.1 with
      | some d => { descriptor := some d, requests := r.2, log := [] }
      | none => { descriptor := none, requests := r.2, log := [user] }

/-! ## Characters and decimal numerals -/

theorem char_le_iff (a b : Char) : a ≤ b ↔ a.toNat ≤ b.toNat := by
  rw [Char.le_def, UInt32.le_def, BitVec.le_def]; rfl

theorem isDigit_iff (c : Char) : c.isDigit = true ↔ 48 ≤ c.toNat ∧ c.toNat ≤ 57 := by
  simp only [Char.isDigit, Bool.and_eq_true, decide_eq_true_eq, ge_iff_le]
  rw [UInt32.le_def, UInt32.le_def, BitVec.le_def, BitVec.le_def]; rfl

theorem digitValue_of_isDigit (c : Char) (h : c.isDigit = true) :
    strconv.digitValue c = some (c.toNat - 48) := by
  have h2 := (isDigit_iff c).1 h
  unfold strconv.digitValue
  rw [if_pos ⟨(char_le_iff _ _).2 h2.1, (char_le_iff _ _).2 h2.2⟩]
  rfl

theorem digitValue_of_not_isDigit (c : Char) (h : ¬ c.isDigit = true) :
    strconv.digitValue c = none ∨ ∃ v, strconv.digitValue c = some v ∧ 10 ≤ v := by
  have h2 : ¬ ('0' ≤ c ∧ c ≤ '9') := by
    rw [char_le_iff, char_le_iff]
    intro h3
    exact h ((isDigit_iff c).2 h3)
  unfold strconv.digitValue
  rw [if_neg h2]
  split_ifs
  · right; exact ⟨_, rfl, by omega⟩
  · right; exact ⟨_, rfl, by omega⟩
  · left; rfl

theorem digitChar_isDigit (m : Nat) (h : m < 10) :
    (Nat.digitChar m).isDigit = true ∧ (Nat.digitChar m).toNat - 48 = m := by
  interval_cases m <;> exact ⟨rfl, rfl⟩

theorem digitsValue_append (acc : Nat) (s t : Str) :
    digitsValue acc (s ++ t) = digitsValue (digitsValue acc s) t := by
  simp [digitsValue, List.foldl_append]

theorem le_digitsValue (s : Str) : ∀ acc, acc ≤ digitsValue acc s := by
  induction s with
  | nil => intro acc; simp [digitsValue]
  | cons c s ih =>
    intro acc
    have := ih (acc * 10 + (c.toNat - 48))
    simp only [digitsValue, List.foldl_cons] at this ⊢
    omega

theorem toDigitsCore_spec : ∀ (fuel n : Nat) (ds : Str), n < fuel →
    ∃ front, Nat.toDigitsCore 10 fuel n ds = front ++ ds ∧ front ≠ [] ∧
      (∀ c ∈ front, c.isDigit = true) ∧
      ∀ acc, digitsValue acc front = acc * 10 ^ front.length + n := by
  intro fuel
  induction fuel with
  | zero => intro n ds h; omega
  | succ fuel ih =>
    intro n ds h
    have hd := digitChar_isDigit (n % 10) (Nat.mod_lt _ (by decide))
    rw [Nat.toDigitsCore]
    by_cases h0 : n / 10 = 0
    · rw [if_pos h0]
      refine ⟨[Nat.digitChar (n % 10)], rfl, by simp, ?_, ?_⟩
      · intro c hc
        rw [List.mem_singleton] at hc
        rw [hc]; exact hd.1
      · intro acc
        simp only [digitsValue, List.foldl_cons, List.foldl_nil, List.length_singleton, pow_one]
        rw [hd.2]; omega
    · rw [if_neg h0]
      obtain ⟨front, hf, _, hdig, hval⟩ := ih (n / 10) (Nat.digitChar (n % 10) :: ds) (by omega)
      refine ⟨front ++ [Nat.digitChar (n % 10)], ?_, by simp, ?_, ?_⟩
      · rw [hf]; simp
      · intro c hc
        rw [List.mem_append, List.mem_singleton] at hc
        rcases hc with hc | hc
        · exact hdig c hc
        · rw [hc]; exact hd.1
      · intro acc
        rw [digitsValue_append, hval acc]
        simp only [digitsValue, List.foldl_cons, List.foldl_nil, List.length_append,
          List.length_singleton, pow_succ]
        rw [hd.2]
        have := Nat.div_add_mod n 10
        nlinarith [Nat.div_add_mod n 10]

theorem decimal_spec (n : Nat) :
    decimal n ≠ [] ∧ (∀ c ∈ decimal n, c.isDigit = true) ∧ digitsValue 0 (decimal n) = n := by
  obtain ⟨front, hf, hne, hdig, hval⟩ := toDigitsCore_spec (n + 1) n [] (by omega)
  have hdec : decimal n = front := by
    rw [decimal, Nat.toDigits, hf, List.append_nil]
  rw [hdec]
  refine ⟨hne, hdig, ?_⟩
  rw [hval 0]; simp

/-! ## `strconv.ParseUint` on decimal input -/

theorem ParseUint_loop_digits (s : Str) : ∀ n, (∀ c ∈ s, c.isDigit = true) →
    n ≤ 2 ^ 32 - 1 →
    strconv.ParseUint.loop 10 ((2 ^ 64 - 1) / 10 + 1) (2 ^ 32 - 1) n s =
      if digitsValue n s ≤ 2 ^ 32 - 1 then some (digitsValue n s) else none := by
  induction s with
  | nil =>
    intro n _ hn
    simp only [strconv.ParseUint.loop, digitsValue, List.foldl_nil]
    rw [if_pos hn]
  | cons c s ih =>
    intro n hdig hn
    have hc := hdig c (List.mem_cons_self _ _)
    have hv := (isDigit_iff c).1 hc
    have hmono := le_digitsValue s (n * 10 + (c.toNat - 48))
    have hstep : digitsValue n (c :: s) = digitsValue (n * 10 + (c.toNat - 48)) s := by
      simp [digitsValue]
    rw [strconv.ParseUint.loop, digitValue_of_isDigit c hc, hstep]
    simp only []
    norm_num at hn hmono ⊢
    have e0 : n * 10 % 18446744073709551616 = n * 10 := Nat.mod_eq_of_lt (by omega)
    have e1 : (n * 10 + (c.toNat - 48)) % 18446744073709551616 = n * 10 + (c.toNat - 48) :=
      Nat.mod_eq_of_lt (by omega)
    rw [if_neg (by omega), if_neg (by omega), e0, e1]
    by_cases hbig : n * 10 + (c.toNat - 48) > 4294967295
    · rw [if_pos (Or.inr hbig), if_neg (by omega)]
    · rw [if_neg (by omega)]
      have := ih (n * 10 + (c.toNat - 48)) (fun d hd => hdig d (List.mem_cons_of_mem _ hd))
        (by norm_num; omega)
      norm_num at this
      exact this

theorem ParseUint_loop_not_digits (b m : Nat) (s : Str) :
    ∀ n, (∃ c ∈ s, ¬ c.isDigit = true) →
      strconv.ParseUint.loop 10 b m n s = none := by
  induction s with
  | nil => intro n h; obtain ⟨c, hc, _⟩ := h; cases hc
  | cons c s ih =>
    intro n h
    rw [strconv.ParseUint.loop]
    by_cases hc : c.isDigit = true
    · have hs : ∃ d ∈ s, ¬ d.isDigit = true := by
        obtain ⟨d, hd, hnd⟩ := h
        rcases List.mem_cons.1 hd with rfl | hd
        · exact absurd hc hnd
        · exact ⟨d, hd, hnd⟩
      rw [digitValue_of_isDigit c hc]
      simp only []
      split_ifs <;> first | rfl | exact ih _ hs
    · rcases digitValue_of_not_isDigit c hc with h0 | ⟨v, h0, hv⟩
      · rw [h0]
      · rw [h0]
        simp only []
        rw [if_pos hv]

/-- The numeral of an index below `2^32` parses to that index. -/
theorem ParseUint_decimal (n : Nat) (h : n < 2 ^ 32) :
    strconv.ParseUint (decimal n) 10 32 = some n := by
  obtain ⟨hne, hdig, hval⟩ := decimal_spec n
  unfold strconv.ParseUint
  rw [if_neg hne, if_neg (by decide), if_neg (by decide),
    ParseUint_loop_digits (decimal n) 0 hdig (by norm_num), hval, if_pos (by omega)]

/-- Text that is empty or holds a character other than a digit does not parse. -/
theorem ParseUint_not_digits (t : Str) (h : t = [] ∨ ∃ c ∈ t, ¬ c.isDigit = true) :
    strconv.ParseUint t 10 32 = none := by
  unfold strconv.ParseUint
  rcases h with h | h
  · rw [if_pos h]
  · split_ifs <;> first | rfl | exact ParseUint_loop_not_digits _ _ t 0 h

/-! ## The splitting loop -/

theorem loop_step_facts (arg : Str) (c : Char) (rest : Str) (i : Nat)
    (hrest : c :: rest = arg.drop i) :
    i < arg.length ∧ rest = arg.drop (i + 1) := by
  have hlt : i < arg.length := by
    by_contra h
    rw [List.drop_eq_nil_of_le (by omega)] at hrest
    cases hrest
  refine ⟨hlt, ?_⟩
  rw [List.drop_eq_getElem_cons hlt] at hrest
  exact (List.cons.inj hrest).2

theorem loop_no_separator (arg : Str) :
    ∀ (rest : Str) (i : Nat), 1 ≤ i → rest = arg.drop i →
      (∀ j, i ≤ j → ¬ IsSeparator arg j) →
      splitFirstUnescapedColon.loop arg i rest = .ok [arg] := by
  intro rest
  induction rest with
  | nil => intro i _ _ _; simp [splitFirstUnescapedColon.loop]
  | cons c rest ih =>
    intro i hi hrest hsep
    obtain ⟨hlt, hrest2⟩ := loop_step_facts arg c rest i hrest
    have hnext := ih (i + 1) (by omega) hrest2 (fun j hj => hsep j (by omega))
    rw [splitFirstUnescapedColon.loop, List.getElem?_eq_getElem hlt,
      List.getElem?_eq_getElem (show i - 1 < arg.length by omega)]
    simp only []
    by_cases h1 : arg[i] ≠ ':'
    · rw [if_pos h1]; exact hnext
    · rw [if_neg h1]
      by_cases h2 : arg[i - 1] = '\\'
      · rw [if_pos h2]; exact hnext
      · exfalso
        apply hsep i le_rfl
        refine ⟨hi, ?_, ?_⟩
        · rw [List.getElem?_eq_getElem hlt]; simpa using h1
        · rw [List.getElem?_eq_getElem (show i - 1 < arg.length by omega)]; simpa using h2

theorem loop_first_separator (arg : Str) (k : Nat) (hk : IsSeparator arg k) :
    ∀ (rest : Str) (i : Nat), 1 ≤ i → rest = arg.drop i → i ≤ k →
      (∀ j, i ≤ j → j < k → ¬ IsSeparator arg j) →
      splitFirstUnescapedColon.loop arg i rest = .ok [arg.take k, arg.drop (k + 1)] := by
  have hklt : k < arg.length := by
    by_contra h
    have := hk.2.1
    rw [List.getElem?_eq_none (by omega)] at this
    cases this
  intro rest
  induction rest with
  | nil =>
    intro i _ hrest hik _
    exfalso
    have := congrArg List.length hrest
    simp at this
    omega
  | cons c rest ih =>
    intro i hi hrest hik hsep
    obtain ⟨hlt, hrest2⟩ := loop_step_facts arg c rest i hrest
    rw [splitFirstUnescapedColon.loop, List.getElem?_eq_getElem hlt,
      List.getElem?_eq_getElem (show i - 1 < arg.length by omega)]
    simp only []
    by_cases hik2 : i = k
    · subst hik2
      obtain ⟨_, hc, hp⟩ := hk
      rw [List.getElem?_eq_getElem hlt] at hc
      rw [List.getElem?_eq_getElem (show i - 1 < arg.length by omega)] at hp
      have hc2 : arg[i] = ':' := by simpa using hc
      have hp2 : ¬ arg[i - 1] = '\\' := by simpa using hp
      rw [if_neg (by simp [hc2]), if_neg hp2, if_pos ⟨by omega, by omega⟩]
    · have hnext := ih (i + 1) (by omega) hrest2 (by omega)
        (fun j hj hjk => hsep j (by omega) hjk)
      have hns := hsep i le_rfl (by omega)
      by_cases h1 : arg[i] ≠ ':'
      · rw [if_pos h1]; exact hnext
      · rw [if_neg h1]
        by_cases h2 : arg[i - 1] = '\\'
        · rw [if_pos h2]; exact hnext
        · exfalso
          apply hns
          refine ⟨hi, ?_, ?_⟩
          · rw [List.getElem?_eq_getElem hlt]; simpa using h1
          · rw [List.getElem?_eq_getElem (show i - 1 < arg.length by omega)]; simpa using h2

/-- With a first separator at `k` the argument is cut there. -/
theorem split_of_firstSeparator (arg : Str) (k : Nat) (h : FirstSeparator arg k) :
    splitFirstUnescapedColon arg = .ok [arg.take k, arg.drop (k + 1)] :=
  loop_first_separator arg k h.1 (arg.drop 1) 1 le_rfl rfl h.1.1
    (fun j _ hjk => h.2 j hjk)

/-- Without a separator the argument is returned whole. -/
theorem split_of_no_separator (arg : Str) (h : ∀ j, ¬ IsSeparator arg j) :
    splitFirstUnescapedColon arg = .ok [arg] :=
  loop_no_separator arg (arg.drop 1) 1 le_rfl rfl (fun j _ => h j)

/-- Either some position holds the first separator or no position is one. -/
theorem firstSeparator_or_none (arg : Str) :
    (∃ k, FirstSeparator arg k) ∨ ∀ j, ¬ IsSeparator arg j := by
  by_cases h : ∃ j, IsSeparator arg j
  · left
    classical
    exact ⟨Nat.find h, Nat.find_spec h, fun j hj => Nat.find_min h hj⟩
  · right
    exact fun j hj => h ⟨j, hj⟩

/-- A host segment without separator, followed by a colon that its last
character does not escape, ends at the first separator of the argument. -/
theorem firstSeparator_append (h p : Str) (hne : h ≠ [])
    (hlast : h.getLast? ≠ some '\\') (hno : ∀ j, ¬ IsSeparator h j) :
    FirstSeparator (h ++ ':' :: p) h.length := by
  have hpos : 0 < h.length := List.length_pos.2 hne
  refine ⟨⟨hpos, ?_, ?_⟩, ?_⟩
  · rw [List.getElem?_append_right (le_refl _)]; simp
  · rw [List.getElem?_append_left (by omega), ← List.getLast?_eq_getElem?]
    exact hlast
  · intro j hj hsep
    apply hno j
    obtain ⟨h1, h2, h3⟩ := hsep
    rw [List.getElem?_append_left hj] at h2
    rw [List.getElem?_append_left (by omega)] at h3
    exact ⟨h1, h2, h3⟩

/-- A string without any colon has no separator. -/
theorem no_separator_of_no_colon (h : Str) (hc : ':' ∉ h) : ∀ j, ¬ IsSeparator h j := by
  intro j hsep
  exact hc (List.getElem?_mem hsep.2.1)

/-! ## `strings.Split` on `/` -/

theorem Split_slash_nil : strings.Split [] "/".toList = [[]] := by decide

theorem Split_slash_cons (c : Char) (cs : Str) :
    strings.Split (c :: cs) "/".toList =
      if c = '/' then [] :: strings.Split cs "/".toList
      else
        match strings.Split cs "/".toList with
        | p :: ps => (c :: p) :: ps
        | [] => [[c]] := by
  by_cases h : c = '/'
  · subst h
    simp [strings.Split, strings.Split.scan]
  · have h2 : ¬ '/' = c := fun e => h e.symm
    simp [strings.Split, strings.Split.scan, h, h2]

theorem Split_slash_ne_nil (s : Str) : strings.Split s "/".toList ≠ [] := by
  cases s with
  | nil => rw [Split_slash_nil]; simp
  | cons c cs =>
    rw [Split_slash_cons]
    split_ifs
    · simp
    · split <;> simp

theorem length_Split_slash (s : Str) :
    (strings.Split s "/".toList).length = s.count '/' + 1 := by
  induction s with
  | nil => rw [Split_slash_nil]; simp
  | cons c cs ih =>
    rw [Split_slash_cons]
    by_cases h : c = '/'
    · subst h
      rw [if_pos rfl, List.length_cons, ih]
      simp
    · rw [if_neg h]
      have hcount : List.count '/' (c :: cs) = List.count '/' cs := by
        rw [List.count_cons_of_ne]
        exact fun e => h e.symm
      rw [hcount, ← ih]
      split
      · simp_all
      · simp_all

theorem Split_slash_of_not_mem (s : Str) (h : '/' ∉ s) :
    strings.Split s "/".toList = [s] := by
  induction s with
  | nil => exact Split_slash_nil
  | cons c cs ih =>
    have hc : ¬ c = '/' := fun e => h (by simp [e])
    have hcs : '/' ∉ cs := fun e => h (List.mem_cons_of_mem _ e)
    rw [Split_slash_cons, if_neg hc, ih hcs]

theorem Split_slash_append (a t : Str) (h : '/' ∉ a) :
    strings.Split (a ++ '/' :: t) "/".toList = a :: strings.Split t "/".toList := by
  induction a with
  | nil => rw [List.nil_append, Split_slash_cons, if_pos rfl]
  | cons c cs ih =>
    have hc : ¬ c = '/' := fun e => h (by simp [e])
    have hcs : '/' ∉ cs := fun e => h (List.mem_cons_of_mem _ e)
    rw [List.cons_append, Split_slash_cons, if_neg hc, ih hcs]

/-! ## `splitHostIndex` -/

theorem splitHostIndex_no_slash (h : Str) (hs : '/' ∉ h) :
    splitHostIndex h = .ok (h, 0) := by
  unfold splitHostIndex
  rw [Split_slash_of_not_mem h hs]

theorem splitHostIndex_one_slash (a t : Str) (ha : '/' ∉ a) (ht : '/' ∉ t) :
    splitHostIndex (a ++ '/' :: t) =
      match strconv.ParseUint t 10 32 with
      | none => .ok (a ++ '/' :: t, 0)
      | some index => .ok (a, toUint index) := by
  unfold splitHostIndex
  rw [Split_slash_append a t ha, Split_slash_of_not_mem t ht]

theorem splitHostIndex_error_iff (h : Str) :
    (∃ err, splitHostIndex h = .error err) ↔ 2 ≤ h.count '/' := by
  have hlen := length_Split_slash h
  unfold splitHostIndex
  split
  · rename_i heq
    rw [heq] at hlen
    simp at hlen
    constructor
    · rintro ⟨err, he⟩; cases he
    · intro h2; omega
  · rename_i heq
    rw [heq] at hlen
    simp at hlen
    constructor
    · rintro ⟨err, he⟩
      split at he <;> cases he
    · intro h2; omega
  · rename_i h1 h2
    constructor
    · intro _
      rcases hsp : strings.Split h "/".toList with _ | ⟨p0, _ | ⟨p1, _ | ⟨p2, ps⟩⟩⟩
      · exact absurd hsp (Split_slash_ne_nil h)
      · exact absurd hsp (h1 p0)
      · exact absurd hsp (h2 p0 p1)
      · rw [hsp] at hlen
        simp at hlen
        omega
    · intro _
      exact ⟨_, rfl⟩

theorem splitHostIndex_ne_panic (h : Str) : splitHostIndex h ≠ .panic := by
  unfold splitHostIndex
  split
  · simp
  · split <;> simp
  · simp

/-! ## `ParseLocation` through the separator -/

theorem ParseLocation_of_no_separator (arg : Str) (h : ∀ j, ¬ IsSeparator arg j) :
    ParseLocation arg = .ok { AppName := [], Index := 0, Path := unescapeColons arg } := by
  unfold ParseLocation
  rw [split_of_no_separator arg h]
  rfl

theorem ParseLocation_of_firstSeparator (arg : Str) (k : Nat) (h : FirstSeparator arg k) :
    ParseLocation arg =
      match splitHostIndex (arg.take k) with
      | .panic => .panic
      | .error err => .error err
      | .ok (host, index) =>
        .ok { AppName := host, Index := index, Path := unescapeColons (arg.drop (k + 1)) } := by
  unfold ParseLocation
  rw [split_of_firstSeparator arg k h]
  rfl

/-- The parts of `host ++ ":" ++ path` when the colon is the first separator. -/
theorem take_drop_append_colon (h p : Str) :
    (h ++ ':' :: p).take h.length = h ∧ (h ++ ':' :: p).drop (h.length + 1) = p := by
  constructor
  · simp
  · rw [← List.drop_drop]
    simp

/-! ## Escaping and unescaping colons -/

theorem unescapeColons_nil : unescapeColons [] = [] := by decide

theorem unescapeColons_escaped (rest : Str) :
    unescapeColons ('\\' :: ':' :: rest) = ':' :: unescapeColons rest := by
  simp [unescapeColons, strings.Replace, strings.Replace.scan]

theorem unescapeColons_other (c : Char) (rest : Str)
    (h : ¬ (c = '\\' ∧ rest.head? = some ':')) :
    unescapeColons (c :: rest) = c :: unescapeColons rest := by
  cases rest with
  | nil => simp [unescapeColons, strings.Replace, strings.Replace.scan]
  | cons d rest =>
    have h2 : ¬ ('\\' = c ∧ ':' = d) := by
      rintro ⟨rfl, rfl⟩
      exact h ⟨rfl, rfl⟩
    simp [unescapeColons, strings.Replace, strings.Replace.scan, h2]

theorem escapeColons_nil : escapeColons [] = [] := by decide

theorem escapeColons_colon (rest : Str) :
    escapeColons (':' :: rest) = '\\' :: ':' :: escapeColons rest := by
  simp [escapeColons, strings.Replace, strings.Replace.scan]

theorem escapeColons_other (c : Char) (rest : Str) (h : c ≠ ':') :
    escapeColons (c :: rest) = c :: escapeColons rest := by
  have h2 : ¬ ':' = c := fun e => h e.symm
  simp [escapeColons, strings.Replace, strings.Replace.scan, h2]

theorem head?_escapeColons (p : Str) : (escapeColons p).head? ≠ some ':' := by
  cases p with
  | nil => rw [escapeColons_nil]; simp
  | cons c p =>
    by_cases hc : c = ':'
    · subst hc; rw [escapeColons_colon]; simp
    · rw [escapeColons_other c p hc]; simpa using hc

/-- Unescaping undoes escaping. -/
theorem unescapeColons_escapeColons (p : Str) : unescapeColons (escapeColons p) = p := by
  induction p with
  | nil => rw [escapeColons_nil, unescapeColons_nil]
  | cons c p ih =>
    by_cases hc : c = ':'
    · subst hc
      rw [escapeColons_colon, unescapeColons_escaped, ih]
    · rw [escapeColons_other c p hc, unescapeColons_other c _ (fun h => head?_escapeColons p h.2), ih]

/-- In an escaped file name every colon follows a backslash. -/
theorem escapeColons_colons_escaped (p : Str) :
    ∀ j, (escapeColons p)[j]? = some ':' → 1 ≤ j ∧ (escapeColons p)[j - 1]? = some '\\' := by
  induction p with
  | nil => intro j h; rw [escapeColons_nil] at h; simp at h
  | cons c p ih =>
    intro j h
    by_cases hc : c = ':'
    · subst hc
      rw [escapeColons_colon] at h ⊢
      match j, h with
      | 0, h => simp at h
      | 1, _ => simp
      | j + 2, h =>
        simp only [List.getElem?_cons_succ] at h
        obtain ⟨h1, h2⟩ := ih j h
        refine ⟨by omega, ?_⟩
        obtain ⟨i, rfl⟩ : ∃ i, j = i + 1 := ⟨j - 1, by omega⟩
        simpa using h2
    · rw [escapeColons_other c p hc] at h ⊢
      match j, h with
      | 0, h => simp at h; exact absurd h hc
      | j + 1, h =>
        simp only [List.getElem?_cons_succ] at h
        obtain ⟨h1, h2⟩ := ih j h
        refine ⟨by omega, ?_⟩
        obtain ⟨i, rfl⟩ : ∃ i, j = i + 1 := ⟨j - 1, by omega⟩
        simpa using h2

/-- An argument whose colons all follow a backslash is a local path. -/
theorem ParseLocation_of_colons_escaped (arg : Str)
    (h : ∀ j, arg[j]? = some ':' → 1 ≤ j ∧ arg[j - 1]? = some '\\') :
    ParseLocation arg = .ok { AppName := [], Index := 0, Path := unescapeColons arg } :=
  ParseLocation_of_no_separator arg (fun j hsep => hsep.2.2 (h j hsep.2.1).2)

theorem isDigit_ne_special (c : Char) (h : c.isDigit = true) :
    c ≠ ':' ∧ c ≠ '/' ∧ c ≠ '\\' := by
  refine ⟨?_, ?_, ?_⟩ <;> (rintro rfl; exact absurd h (by decide))

/-! ## The claims about `ParseLocation` -/

/-- C1: for every app name containing neither `/` nor `:`, every index `n`
below `2^32` and every path, `ParseLocation` of `app/n:path`, with `n` written
in decimal, returns no error and the location with that app name, that index
and the path with every `\:` replaced by `:`. -/
theorem parseLocation_app_index (app path : Str) (n : Nat)
    (hslash : '/' ∉ app) (hcolon : ':' ∉ app) (hn : n < 2 ^ 32) :
    ParseLocation (app ++ "/".toList ++ decimal n ++ ":".toList ++ path) =
      .ok { AppName := app, Index := n,
            Path := strings.Replace path "\\:".toList ":".toList } := by
  obtain ⟨hne, hdig, _⟩ := decimal_spec n
  have harg : app ++ "/".toList ++ decimal n ++ ":".toList ++ path =
      (app ++ '/' :: decimal n) ++ ':' :: path := by simp
  have hdslash : '/' ∉ decimal n := fun hm => (isDigit_ne_special _ (hdig _ hm)).2.1 rfl
  have hlast : (app ++ '/' :: decimal n).getLast? ≠ some '\\' := by
    rw [List.append_cons, List.getLast?_append_of_ne_nil _ hne]
    intro hl
    exact (isDigit_ne_special _ (hdig _ (List.mem_of_mem_getLast? hl))).2.2 rfl
  have hno : ':' ∉ app ++ '/' :: decimal n := by
    intro hm
    rcases List.mem_append.1 hm with hm | hm
    · exact hcolon hm
    · rcases List.mem_cons.1 hm with hm | hm
      · exact absurd hm (by decide)
      · exact (isDigit_ne_special _ (hdig _ hm)).1 rfl
  have hsep := firstSeparator_append (app ++ '/' :: decimal n) path (by simp) hlast
    (no_separator_of_no_colon _ hno)
  rw [harg, ParseLocation_of_firstSeparator _ _ hsep, (take_drop_append_colon _ _).1,
    (take_drop_append_colon _ _).2, splitHostIndex_one_slash app (decimal n) hslash hdslash,
    ParseUint_decimal n hn]
  simp only [toUint, unescapeColons, Nat.mod_eq_of_lt hn]

/-- Instance of C1 at `app/99:remote.txt`. -/
theorem parseLocation_app_index_witness :
    ('/' ∉ "app".toList ∧ ':' ∉ "app".toList ∧ 99 < 2 ^ 32) ∧
    ParseLocation ("app".toList ++ "/".toList ++ decimal 99 ++ ":".toList ++ "remote.txt".toList) =
      .ok { AppName := "app".toList, Index := 99,
            Path := strings.Replace "remote.txt".toList "\\:".toList ":".toList } :=
  ⟨⟨by decide, by decide, by decide⟩,
    parseLocation_app_index "app".toList "remote.txt".toList 99 (by decide) (by decide) (by decide)⟩

/-- C2 as stated fails: the app name `a\` is non-empty and holds neither `/`
nor `:`, yet in `a\:x` its final backslash escapes the colon, so the argument
is a local path and not a location of the app `a\`. -/
theorem parseLocation_app_counterexample :
    ¬ ∀ app path : Str, app ≠ [] → '/' ∉ app → ':' ∉ app →
      ParseLocation (app ++ ":".toList ++ path) =
        .ok { AppName := app, Index := 0,
              Path := strings.Replace path "\\:".toList ":".toList } := by
  intro h
  have h1 := h "a\\".toList "x".toList (by decide) (by decide) (by decide)
  revert h1
  decide

/-- C2, amended: for every non-empty app name that contains neither `/` nor
`:` and does not end in a backslash, and every path, `ParseLocation` of
`app:path` returns no error and the location with that app name, index 0 and
the path with every `\:` replaced by `:`; further colons in the path do not
separate. -/
theorem parseLocation_app (app path : Str) (hne : app ≠ [])
    (hslash : '/' ∉ app) (hcolon : ':' ∉ app) (hlast : app.getLast? ≠ some '\\') :
    ParseLocation (app ++ ":".toList ++ path) =
      .ok { AppName := app, Index := 0,
            Path := strings.Replace path "\\:".toList ":".toList } := by
  have harg : app ++ ":".toList ++ path = app ++ ':' :: path := by simp
  have hsep := firstSeparator_append app path hne hlast (no_separator_of_no_colon _ hcolon)
  rw [harg, ParseLocation_of_firstSeparator _ _ hsep, (take_drop_append_colon _ _).1,
    (take_drop_append_colon _ _).2, splitHostIndex_no_slash app hslash]
  rfl

/-- Instance of the amended C2 at `app:a:b`, whose path holds a further colon. -/
theorem parseLocation_app_witness :
    ("app".toList ≠ [] ∧ '/' ∉ "app".toList ∧ ':' ∉ "app".toList ∧
      "app".toList.getLast? ≠ some '\\') ∧
    ParseLocation ("app".toList ++ ":".toList ++ "a:b".toList) =
      .ok { AppName := "app".toList, Index := 0,
            Path := strings.Replace "a:b".toList "\\:".toList ":".toList } :=
  ⟨⟨by decide, by decide, by decide, by decide⟩,
    parseLocation_app "app".toList "a:b".toList (by decide) (by decide) (by decide) (by decide)⟩

/-- C3: for every argument in which every `:` is immediately preceded by a
backslash (so also for every argument without `:` and for the empty one),
`ParseLocation` returns no error and a local location: empty app name, index 0
and as path the argument with every `\:` replaced by `:`. -/
theorem parseLocation_local (arg : Str)
    (h : ∀ i < arg.length, arg[i]? = some ':' → 1 ≤ i ∧ arg[i - 1]? = some '\\') :
    ParseLocation arg =
      .ok { AppName := [], Index := 0,
            Path := strings.Replace arg "\\:".toList ":".toList } := by
  apply ParseLocation_of_colons_escaped
  intro j hj
  exact h j (List.getElem?_eq_some.1 hj).1 hj

/-- Instance of C3 at the Windows path `C\:\f`. -/
theorem parseLocation_local_witness :
    (∀ i < "C\\:\\f".toList.length,
      "C\\:\\f".toList[i]? = some ':' → 1 ≤ i ∧ "C\\:\\f".toList[i - 1]? = some '\\') ∧
    ParseLocation "C\\:\\f".toList =
      .ok { AppName := [], Index := 0,
            Path := strings.Replace "C\\:\\f".toList "\\:".toList ":".toList } :=
  ⟨by decide, parseLocation_local "C\\:\\f".toList (by decide)⟩

/-- C4: escape round trip.  For every file name `p`, `ParseLocation` of `p`
with every `:` replaced by `\:` returns no error and the local location whose
path is `p` itself. -/
theorem parseLocation_escape_roundtrip (p : Str) :
    ParseLocation (strings.Replace p ":".toList "\\:".toList) =
      .ok { AppName := [], Index := 0, Path := p } := by
  have h := ParseLocation_of_colons_escaped (escapeColons p) (escapeColons_colons_escaped p)
  rw [unescapeColons_escapeColons] at h
  exact h

/-- C5: `ParseLocation` returns an error exactly when the argument has a
separator colon and the host segment before the first one holds two or more
`/`; for every other argument it returns a location. -/
theorem parseLocation_error_iff (arg : Str) :
    ((∃ err, ParseLocation arg = .error err) ↔
      ∃ k, FirstSeparator arg k ∧ 2 ≤ (arg.take k).count '/') ∧
    ((¬ ∃ k, FirstSeparator arg k ∧ 2 ≤ (arg.take k).count '/') →
      ∃ loc, ParseLocation arg = .ok loc) := by
  rcases firstSeparator_or_none arg with ⟨k, hk⟩ | hnone
  · have huniq : ∀ k2, FirstSeparator arg k2 → k2 = k := by
      intro k2 hk2
      by_contra hne
      rcases Nat.lt_or_gt_of_ne hne with hlt | hgt
      · exact hk.2 k2 hlt hk2.1
      · exact hk2.2 k hgt hk.1
    have hP := ParseLocation_of_firstSeparator arg k hk
    have herr := splitHostIndex_error_iff (arg.take k)
    have hnp := splitHostIndex_ne_panic (arg.take k)
    rcases hsh : splitHostIndex (arg.take k) with ⟨host, index⟩ | err | _
    · rw [hsh] at hP herr
      have hcount : ¬ 2 ≤ (arg.take k).count '/' := fun h2 => by
        obtain ⟨e, he⟩ := herr.2 h2
        cases he
      refine ⟨⟨?_, ?_⟩, fun _ => ⟨_, hP⟩⟩
      · rintro ⟨e, he⟩
        rw [hP] at he
        cases he
      · rintro ⟨k2, hk2, h2⟩
        rw [huniq k2 hk2] at h2
        exact absurd h2 hcount
    · rw [hsh] at hP herr
      have hcount : 2 ≤ (arg.take k).count '/' := herr.1 ⟨err, rfl⟩
      refine ⟨⟨fun _ => ⟨k, hk, hcount⟩, fun _ => ⟨err, hP⟩⟩, fun hno => ?_⟩
      exact absurd ⟨k, hk, hcount⟩ hno
    · exact absurd hsh hnp
  · have hP := ParseLocation_of_no_separator arg hnone
    refine ⟨⟨?_, ?_⟩, fun _ => ⟨_, hP⟩⟩
    · rintro ⟨e, he⟩
      rw [hP] at he
      cases he
    · rintro ⟨k, hk, _⟩
      exact absurd hk.1 (hnone k)

/-- C6: index fallback.  When the host segment before the first separator of
the argument is `a/t` with no further `/`, and `t` is empty or holds a
character that is not a decimal digit, `ParseLocation` returns no error, the
app name is the whole host segment and the index is 0. -/
theorem parseLocation_index_fallback (arg a t : Str) (k : Nat)
    (hk : FirstSeparator arg k) (hhost : arg.take k = a ++ "/".toList ++ t)
    (ha : '/' ∉ a) (ht : '/' ∉ t) (hbad : t = [] ∨ ∃ c ∈ t, ¬ c.isDigit = true) :
    ParseLocation arg =
      .ok { AppName := arg.take k, Index := 0,
            Path := strings.Replace (arg.drop (k + 1)) "\\:".toList ":".toList } := by
  have hhost2 : arg.take k = a ++ '/' :: t := by rw [hhost]; simp
  rw [ParseLocation_of_firstSeparator arg k hk, hhost2, splitHostIndex_one_slash a t ha ht,
    ParseUint_not_digits t hbad]
  rfl

/-- Instance of C6 at `app/x1:file`. -/
theorem parseLocation_index_fallback_witness :
    (FirstSeparator "app/x1:file".toList 6 ∧
      "app/x1:file".toList.take 6 = "app".toList ++ "/".toList ++ "x1".toList ∧
      '/' ∉ "app".toList ∧ '/' ∉ "x1".toList ∧
      ("x1".toList = [] ∨ ∃ c ∈ "x1".toList, ¬ c.isDigit = true)) ∧
    ParseLocation "app/x1:file".toList =
      .ok { AppName := "app/x1:file".toList.take 6, Index := 0,
            Path := strings.Replace ("app/x1:file".toList.drop (6 + 1))
              "\\:".toList ":".toList } :=
  ⟨⟨by decide, by decide, by decide, by decide, Or.inr ⟨'x', by decide, by decide⟩⟩,
    parseLocation_index_fallback "app/x1:file".toList "app".toList "x1".toList 6
      (by decide) (by decide) (by decide) (by decide) (Or.inr ⟨'x', by decide, by decide⟩)⟩

/-! ## The claims about `SCPOptions.Parse` -/

theorem parseLocations_loop_ok (args : List Str) :
    ∀ (locs out : List FileLocation), args.map ParseLocation = out.map Outcome.ok →
      SCPOptions.parseLocations.loop locs args = .ok (locs ++ out) := by
  induction args with
  | nil =>
    intro locs out h
    cases out with
    | nil => simp [SCPOptions.parseLocations.loop]
    | cons l out => simp at h
  | cons arg args ih =>
    intro locs out h
    cases out with
    | nil => simp at h
    | cons l out =>
      rw [List.map_cons, List.map_cons] at h
      obtain ⟨h1, h2⟩ := List.cons.inj h
      rw [SCPOptions.parseLocations.loop, h1]
      simp only []
      rw [ih (locs ++ [l]) out h2]
      simp

theorem parseLocations_ok (args : List Str) (out : List FileLocation)
    (h : args.map ParseLocation = out.map Outcome.ok) :
    SCPOptions.parseLocations args = .ok out := by
  rw [SCPOptions.parseLocations, parseLocations_loop_ok args [] out h, List.nil_append]

/-- C7: when the first argument is `scp`, option parsing succeeds and leaves
the positional arguments `a_1 .. a_k` with `k ≥ 2` (here: at least one source
argument followed by the target argument) and each of them parses without
error, `Parse` returns no error, `Sources` is the list of the parsed
`a_1 .. a_(k-1)` in argument order, so it has `k - 1 ≥ 1` elements, and
`Target` is the parsed `a_k`. -/
theorem parse_sources_target (Getopt : SCPOptions → List Str → GetoptResult)
    (o : SCPOptions) (rest srcArgs : List Str) (tgtArg : Str)
    (srcLocs : List FileLocation) (tgtLoc : FileLocation)
    (hopt : (Getopt o ("scp".toList :: rest)).err = none)
    (hargs : (Getopt o ("scp".toList :: rest)).Args = srcArgs ++ [tgtArg])
    (hk : srcArgs ≠ [])
    (hsrc : srcArgs.map ParseLocation = srcLocs.map Outcome.ok)
    (htgt : ParseLocation tgtArg = .ok tgtLoc) :
    SCPOptions.Parse Getopt o ("scp".toList :: rest) =
      ({ Sources := srcLocs, Target := tgtLoc,
         Verbose := (Getopt o ("scp".toList :: rest)).Verbose,
         PreserveAttributes := (Getopt o ("scp".toList :: rest)).PreserveAttributes,
         Recurse := (Getopt o ("scp".toList :: rest)).Recurse }, .ok ()) ∧
    srcLocs.length = srcArgs.length ∧ 1 ≤ srcLocs.length := by
  have hlen : srcLocs.length = srcArgs.length := by
    have := congrArg List.length hsrc
    simpa using this.symm
  have hpos : 0 < srcArgs.length := List.length_pos.2 hk
  have hall : (srcArgs ++ [tgtArg]).map ParseLocation = (srcLocs ++ [tgtLoc]).map Outcome.ok := by
    rw [List.map_append, List.map_append, hsrc]
    simp [htgt]
  have hlocs := parseLocations_ok _ _ hall
  refine ⟨?_, hlen, by omega⟩
  unfold SCPOptions.Parse
  rw [if_neg (by simp)]
  simp only [hopt, hargs, hlocs]
  rw [if_neg (by simp; omega), if_neg (by simp)]
  simp

/-- Instance of C7 at `scp local.txt app/1:remote.txt app/99:remote.txt`, with
an option parser that finds no flag and leaves every argument after the
command name. -/
theorem parse_sources_target_witness :
    SCPOptions.Parse (fun o args => ⟨none, o.Verbose, o.PreserveAttributes, o.Recurse, args.drop 1⟩)
        {} ("scp".toList :: ["local.txt".toList, "app/1:remote.txt".toList,
          "app/99:remote.txt".toList]) =
      ({ Sources := [{ Path := "local.txt".toList },
                     { AppName := "app".toList, Index := 1, Path := "remote.txt".toList }],
         Target := { AppName := "app".toList, Index := 99, Path := "remote.txt".toList },
         Verbose := false, PreserveAttributes := false, Recurse := false }, .ok ()) ∧
    2 = 2 ∧ 1 ≤ 2 :=
  parse_sources_target
    (fun o args => ⟨none, o.Verbose, o.PreserveAttributes, o.Recurse, args.drop 1⟩) {}
    ["local.txt".toList, "app/1:remote.txt".toList, "app/99:remote.txt".toList]
    ["local.txt".toList, "app/1:remote.txt".toList] "app/99:remote.txt".toList
    [{ Path := "local.txt".toList },
      { AppName := "app".toList, Index := 1, Path := "remote.txt".toList }]
    { AppName := "app".toList, Index := 99, Path := "remote.txt".toList }
    rfl rfl (by decide) (by decide) (by decide)

/-- C8: for every argument list that is empty or whose first element is not
`scp`, `Parse` returns `UsageError`, whatever the other elements are, and
leaves the options as they were. -/
theorem parse_usage_error (Getopt : SCPOptions → List Str → GetoptResult)
    (o : SCPOptions) (args : List Str)
    (h : args = [] ∨ args.head? ≠ some "scp".toList) :
    SCPOptions.Parse Getopt o args = (o, .error .UsageError) := by
  unfold SCPOptions.Parse
  rw [if_pos]
  rcases h with h | h
  · left; rw [h]; decide
  · right; exact h

/-- Instance of C8 at the argument list `ssh`. -/
theorem parse_usage_error_witness :
    (["ssh".toList] = [] ∨ ["ssh".toList].head? ≠ some "scp".toList) ∧
    SCPOptions.Parse (fun o args => ⟨none, o.Verbose, o.PreserveAttributes, o.Recurse, args.drop 1⟩)
        {} ["ssh".toList] = ({}, .error .UsageError) :=
  ⟨Or.inr (by decide), parse_usage_error _ {} ["ssh".toList] (Or.inr (by decide))⟩

/-- C9: when the first argument is `scp` and option parsing succeeds and
leaves fewer than two positional arguments, `Parse` returns the error whose
message is `Source and target must be provided`. -/
theorem parse_too_few_arguments (Getopt : SCPOptions → List Str → GetoptResult)
    (o : SCPOptions) (rest : List Str)
    (hopt : (Getopt o ("scp".toList :: rest)).err = none)
    (hlen : (Getopt o ("scp".toList :: rest)).Args.length < 2) :
    (SCPOptions.Parse Getopt o ("scp".toList :: rest)).2 =
      .error (.New "Source and target must be provided") := by
  unfold SCPOptions.Parse
  rw [if_neg (by simp)]
  simp only [hopt]
  rw [if_pos hlen]

/-- Instance of C9 at `scp local.txt`. -/
theorem parse_too_few_arguments_witness :
    (SCPOptions.Parse
        (fun o args => ⟨none, o.Verbose, o.PreserveAttributes, o.Recurse, args.drop 1⟩)
        {} ("scp".toList :: ["local.txt".toList])).2 =
      .error (.New "Source and target must be provided") :=
  parse_too_few_arguments
    (fun o args => ⟨none, o.Verbose, o.PreserveAttributes, o.Recurse, args.drop 1⟩) {}
    ["local.txt".toList] rfl (by decide)

/-- C10 at the input `/5:file`: the argument has a separator colon at position
2, so it is not a local path, yet `ParseLocation` succeeds with an empty app
name, index 5 and path `file`, against the rule that an empty app name is for
a local path. -/
theorem parseLocation_empty_app_not_local :
    FirstSeparator "/5:file".toList 2 ∧
    ParseLocation "/5:file".toList =
      .ok { AppName := [], Index := 5, Path := "file".toList } := by
  decide

/-! ## Every way `ParseLocation` can return -/

theorem ParseUint_some_iff (t : Str) (n : Nat) :
    strconv.ParseUint t 10 32 = some n ↔
      t ≠ [] ∧ (∀ c ∈ t, c.isDigit = true) ∧ digitsValue 0 t = n ∧ n ≤ 2 ^ 32 - 1 := by
  by_cases hne : t = []
  · rw [ParseUint_not_digits t (Or.inl hne)]
    simp [hne]
  · by_cases hdig : ∀ c ∈ t, c.isDigit = true
    · have hloop := ParseUint_loop_digits t 0 hdig (by norm_num)
      unfold strconv.ParseUint
      rw [if_neg hne, if_neg (by decide), if_neg (by decide), hloop]
      by_cases hle : digitsValue 0 t ≤ 2 ^ 32 - 1
      · rw [if_pos hle]
        constructor
        · intro h
          have h2 : digitsValue 0 t = n := by simpa using h
          exact ⟨hne, hdig, h2, h2 ▸ hle⟩
        · rintro ⟨_, _, h2, _⟩
          rw [h2]
      · rw [if_neg hle]
        constructor
        · intro h; cases h
        · rintro ⟨_, _, h2, h3⟩
          exact absurd (h2 ▸ h3) hle
    · have hex : ∃ c ∈ t, ¬ c.isDigit = true := by
        by_contra hcon
        apply hdig
        intro c hc
        by_contra hnd
        exact hcon ⟨c, hc, hnd⟩
      rw [ParseUint_not_digits t (Or.inr hex)]
      constructor
      · intro h; cases h
      · rintro ⟨_, h2, _⟩
        exact absurd h2 hdig

theorem exists_split_of_count_one (h : Str) (hc : h.count '/' = 1) :
    ∃ a t, h = a ++ '/' :: t ∧ '/' ∉ a ∧ '/' ∉ t := by
  have hmem : '/' ∈ h := by
    rw [← List.count_pos_iff]
    omega
  obtain ⟨a, t, rfl, ha⟩ := List.eq_append_cons_of_mem hmem
  refine ⟨a, t, rfl, ha, ?_⟩
  intro ht
  have h1 : 0 < t.count '/' := List.count_pos_iff.2 ht
  rw [List.count_append, List.count_cons_self] at hc
  omega

/-- The five ways `ParseLocation` returns: a local path; a host without `/`;
a host `a/t` whose `t` does not parse; a host `a/t` whose `t` parses; and the
error for a host with two or more `/`. -/
theorem ParseLocation_cases (arg : Str) :
    ((∀ j, ¬ IsSeparator arg j) ∧
      ParseLocation arg = .ok { AppName := [], Index := 0, Path := unescapeColons arg }) ∨
    (∃ k, FirstSeparator arg k ∧ '/' ∉ arg.take k ∧
      ParseLocation arg =
        .ok { AppName := arg.take k, Index := 0, Path := unescapeColons (arg.drop (k + 1)) }) ∨
    (∃ k a t, FirstSeparator arg k ∧ arg.take k = a ++ '/' :: t ∧ '/' ∉ a ∧ '/' ∉ t ∧
      strconv.ParseUint t 10 32 = none ∧
      ParseLocation arg =
        .ok { AppName := arg.take k, Index := 0, Path := unescapeColons (arg.drop (k + 1)) }) ∨
    (∃ k a t n, FirstSeparator arg k ∧ arg.take k = a ++ '/' :: t ∧ '/' ∉ a ∧ '/' ∉ t ∧
      strconv.ParseUint t 10 32 = some n ∧
      ParseLocation arg =
        .ok { AppName := a, Index := toUint n, Path := unescapeColons (arg.drop (k + 1)) }) ∨
    (∃ k err, FirstSeparator arg k ∧ 2 ≤ (arg.take k).count '/' ∧
      ParseLocation arg = .error err) := by
  rcases firstSeparator_or_none arg with ⟨k, hk⟩ | hnone
  · have hP := ParseLocation_of_firstSeparator arg k hk
    rcases Nat.lt_or_ge ((arg.take k).count '/') 1 with h0 | h1
    · have hno : '/' ∉ arg.take k := by
        intro hm
        have := List.count_pos_iff.2 hm
        omega
      rw [splitHostIndex_no_slash _ hno] at hP
      exact Or.inr (Or.inl ⟨k, hk, hno, hP⟩)
    · rcases Nat.lt_or_ge ((arg.take k).count '/') 2 with h2 | h2
      · obtain ⟨a, t, hat, ha, ht⟩ := exists_split_of_count_one (arg.take k) (by omega)
        rw [hat, splitHostIndex_one_slash a t ha ht] at hP
        rcases hpu : strconv.ParseUint t 10 32 with _ | n
        · rw [hpu] at hP
          rw [← hat] at hP
          exact Or.inr (Or.inr (Or.inl ⟨k, a, t, hk, hat, ha, ht, hpu, hP⟩))
        · rw [hpu] at hP
          exact Or.inr (Or.inr (Or.inr (Or.inl ⟨k, a, t, n, hk, hat, ha, ht, hpu, hP⟩)))
      · obtain ⟨err, herr⟩ := (splitHostIndex_error_iff (arg.take k)).2 h2
        rw [herr] at hP
        exact Or.inr (Or.inr (Or.inr (Or.inr ⟨k, err, hk, h2, hP⟩)))
  · exact Or.inl ⟨hnone, ParseLocation_of_no_separator arg hnone⟩

theorem ParseLocation_ne_panic (arg : Str) : ParseLocation arg ≠ .panic := by
  rcases ParseLocation_cases arg with ⟨_, h⟩ | ⟨_, _, _, h⟩ | ⟨_, _, _, _, _, _, _, _, h⟩ |
    ⟨_, _, _, _, _, _, _, _, _, h⟩ | ⟨_, _, _, _, h⟩ <;> rw [h] <;> simp

theorem firstSeparator_unique (arg : Str) (k k2 : Nat)
    (hk : FirstSeparator arg k) (hk2 : FirstSeparator arg k2) : k2 = k := by
  by_contra hne
  rcases Nat.lt_or_gt_of_ne hne with hlt | hgt
  · exact hk.2 k2 hlt hk2.1
  · exact hk2.2 k hgt hk.1

/-! ## The loop of `parseLocations` -/

theorem parseLocations_loop_length (args : List Str) :
    ∀ (locs out : List FileLocation), SCPOptions.parseLocations.loop locs args = .ok out →
      out.length = locs.length + args.length := by
  induction args with
  | nil =>
    intro locs out h
    simp only [SCPOptions.parseLocations.loop, Outcome.ok.injEq] at h
    simp [h]
  | cons arg args ih =>
    intro locs out h
    rw [SCPOptions.parseLocations.loop] at h
    rcases hP : ParseLocation arg with loc | err | _
    · rw [hP] at h
      have := ih _ _ h
      simp at this ⊢
      omega
    · rw [hP] at h; cases h
    · rw [hP] at h; cases h

theorem parseLocations_loop_ne_panic (args : List Str) :
    ∀ (locs : List FileLocation), SCPOptions.parseLocations.loop locs args ≠ .panic := by
  induction args with
  | nil => intro locs; simp [SCPOptions.parseLocations.loop]
  | cons arg args ih =>
    intro locs
    rw [SCPOptions.parseLocations.loop]
    rcases hP : ParseLocation arg with loc | err | _
    · exact ih _
    · simp
    · exact absurd hP (ParseLocation_ne_panic arg)

theorem parseLocations_loop_error (pre : List Str) (bad : Str) (post : List Str)
    (err : GoError) (hbad : ParseLocation bad = .error err) :
    ∀ (locs0 locs : List FileLocation), pre.map ParseLocation = locs.map Outcome.ok →
      SCPOptions.parseLocations.loop locs0 (pre ++ bad :: post) = .error err := by
  induction pre with
  | nil =>
    intro locs0 locs _
    rw [List.nil_append, SCPOptions.parseLocations.loop, hbad]
  | cons arg pre ih =>
    intro locs0 locs h
    cases locs with
    | nil => simp at h
    | cons l locs =>
      rw [List.map_cons, List.map_cons] at h
      obtain ⟨h1, h2⟩ := List.cons.inj h
      rw [List.cons_append, SCPOptions.parseLocations.loop, h1]
      exact ih _ locs h2

/-! ## `Parse` with the option set of `NewSCPOptions` -/

theorem Parse_ok_of_positional (Getopt : SCPOptions → List Str → GetoptResult)
    (o : SCPOptions) (args srcArgs : List Str) (tgtArg : Str)
    (srcLocs : List FileLocation) (tgtLoc : FileLocation)
    (hscp : args.head? = some "scp".toList)
    (hopt : (Getopt o args).err = none)
    (hargs : (Getopt o args).Args = srcArgs ++ [tgtArg])
    (hk : srcArgs ≠ [])
    (hsrc : srcArgs.map ParseLocation = srcLocs.map Outcome.ok)
    (htgt : ParseLocation tgtArg = .ok tgtLoc) :
    SCPOptions.Parse Getopt o args =
      ({ Sources := srcLocs, Target := tgtLoc,
         Verbose := (Getopt o args).Verbose,
         PreserveAttributes := (Getopt o args).PreserveAttributes,
         Recurse := (Getopt o args).Recurse }, .ok ()) := by
  have hlen : srcLocs.length = srcArgs.length := by
    have := congrArg List.length hsrc
    simpa using this.symm
  have hpos : 0 < srcArgs.length := List.length_pos.2 hk
  have hall : (srcArgs ++ [tgtArg]).map ParseLocation = (srcLocs ++ [tgtLoc]).map Outcome.ok := by
    rw [List.map_append, List.map_append, hsrc]
    simp [htgt]
  have hlocs := parseLocations_ok _ _ hall
  have hne : args ≠ [] := by
    intro h0
    rw [h0] at hscp
    cases hscp
  unfold SCPOptions.Parse
  rw [if_neg (by simp [hscp, hne])]
  simp only [hopt, hargs, hlocs]
  rw [if_neg (by simp; omega), if_neg (by simp)]
  simp

theorem getopt_loop_positional (r : GetoptResult) (a : Str) (rest : List Str)
    (hpos : a.head? ≠ some '-' ∨ a = "-".toList) :
    getoptSet.loop r (a :: rest) = { r with Args := a :: rest } := by
  rw [getoptSet.loop]
  rcases hpos with h | h
  · rw [if_pos (Or.inr h)]
  · subst h
    rw [if_neg (by decide), if_pos rfl]

theorem getopt_flag (f : Char) (a b : Str) (hf : f = 'v' ∨ f = 'p' ∨ f = 'r')
    (hpos : a.head? ≠ some '-' ∨ a = "-".toList) :
    getoptSet.Getopt NewSCPOptions ["scp".toList, ['-', f], a, b] =
      ⟨none, decide (f = 'v'), decide (f = 'p'), decide (f = 'r'), [a, b]⟩ := by
  rcases hf with rfl | rfl | rfl
  · exact getopt_loop_positional ⟨none, true, false, false, ["-v".toList, a, b]⟩ a [b] hpos
  · exact getopt_loop_positional ⟨none, false, true, false, ["-p".toList, a, b]⟩ a [b] hpos
  · exact getopt_loop_positional ⟨none, false, false, true, ["-r".toList, a, b]⟩ a [b] hpos

/-- C11: for each flag `-v`, `-p`, `-r` and all positional arguments `a`, `b`
that parse (`a` does not start with `-`, or is `-` alone), `Parse` of
`scp`, the flag, `a`, `b` on fresh options returns no error, sets the field
of the flag to true, leaves the other two flag fields false, and the flag is
neither a source nor the target: the sources are `a` alone and the target is
`b`. -/
theorem parse_flag (f : Char) (a b : Str) (la lb : FileLocation)
    (hf : f = 'v' ∨ f = 'p' ∨ f = 'r')
    (hpos : a.head? ≠ some '-' ∨ a = "-".toList)
    (ha : ParseLocation a = .ok la) (hb : ParseLocation b = .ok lb) :
    SCPOptions.Parse getoptSet.Getopt NewSCPOptions ["scp".toList, ['-', f], a, b] =
      ({ Sources := [la], Target := lb, Verbose := decide (f = 'v'),
         PreserveAttributes := decide (f = 'p'), Recurse := decide (f = 'r') }, .ok ()) := by
  have hg := getopt_flag f a b hf hpos
  have h := Parse_ok_of_positional getoptSet.Getopt NewSCPOptions
    ["scp".toList, ['-', f], a, b] [a] b [la] lb rfl (by rw [hg]) (by rw [hg]; rfl)
    (by simp) (by simp [ha]) hb
  rw [h, hg]

/-- Instance of C11 at `scp -p file dir`. -/
theorem parse_flag_witness :
    SCPOptions.Parse getoptSet.Getopt NewSCPOptions
        ["scp".toList, ['-', 'p'], "file".toList, "dir".toList] =
      ({ Sources := [{ Path := "file".toList }], Target := { Path := "dir".toList },
         Verbose := decide ('p' = 'v'), PreserveAttributes := decide ('p' = 'p'),
         Recurse := decide ('p' = 'r') }, .ok ()) :=
  parse_flag 'p' "file".toList "dir".toList { Path := "file".toList } { Path := "dir".toList }
    (Or.inr (Or.inl rfl)) (Or.inl (by decide)) (by decide) (by decide)

/-! ## Totality, atomicity and the index -/

theorem Parse_ne_panic (Getopt : SCPOptions → List Str → GetoptResult)
    (o : SCPOptions) (args : List Str) :
    (SCPOptions.Parse Getopt o args).2 ≠ .panic := by
  unfold SCPOptions.Parse
  split_ifs with h1
  · simp
  · simp only []
    rcases herr : (Getopt o args).err with _ | e
    · simp only []
      split_ifs with h2
      · simp
      · rcases hloc : SCPOptions.parseLocations (Getopt o args).Args with locs | e | _
        · have hl := parseLocations_loop_length _ [] locs hloc
          simp only [List.length_nil, Nat.zero_add] at hl
          simp only []
          rw [if_neg (by omega), List.getElem?_eq_getElem (by omega)]
          simp
        · simp
        · exact absurd hloc (parseLocations_loop_ne_panic _ _)
    · simp

/-- C15: `ParseLocation` and its helpers are total.  For every argument, the
empty and the one-character ones included, `splitFirstUnescapedColon` makes no
index or slice step out of range (it does not panic) and returns exactly one
or exactly two parts, and `ParseLocation` does not panic; and `Parse` slices
only a list of at least two locations, one for each of the at least two
positional arguments, so it does not panic either. -/
theorem parse_total (arg : Str) (Getopt : SCPOptions → List Str → GetoptResult)
    (o : SCPOptions) (args positional : List Str) :
    (∃ parts, splitFirstUnescapedColon arg = .ok parts ∧
      (parts.length = 1 ∨ parts.length = 2)) ∧
    ParseLocation arg ≠ .panic ∧
    (∀ locs, 2 ≤ positional.length → SCPOptions.parseLocations positional = .ok locs →
      locs.length = positional.length ∧ 2 ≤ locs.length ∧
      locs.length - 1 ≤ locs.length ∧ locs.length - 1 < locs.length) ∧
    (SCPOptions.Parse Getopt o args).2 ≠ .panic := by
  refine ⟨?_, ParseLocation_ne_panic arg, ?_, Parse_ne_panic Getopt o args⟩
  · rcases firstSeparator_or_none arg with ⟨k, hk⟩ | hnone
    · exact ⟨_, split_of_firstSeparator arg k hk, Or.inr rfl⟩
    · exact ⟨_, split_of_no_separator arg hnone, Or.inl rfl⟩
  · intro locs h2 hloc
    have hl := parseLocations_loop_length _ [] locs hloc
    simp only [List.length_nil, Nat.zero_add] at hl
    omega

/-- C16 as stated fails: in `scp ap/99/99:remote.txt` the only positional
argument fails `ParseLocation`, yet `Parse` returns the error for a missing
source or target, which it checks first, and not the error of the argument. -/
theorem parse_bad_location_counterexample :
    ParseLocation "ap/99/99:remote.txt".toList =
      .error (.invalidHostIndexFormat "ap/99/99".toList) ∧
    (getoptSet.Getopt NewSCPOptions ["scp".toList, "ap/99/99:remote.txt".toList]).err = none ∧
    (getoptSet.Getopt NewSCPOptions ["scp".toList, "ap/99/99:remote.txt".toList]).Args =
      ["ap/99/99:remote.txt".toList] ∧
    (SCPOptions.Parse getoptSet.Getopt NewSCPOptions
        ["scp".toList, "ap/99/99:remote.txt".toList]).2 =
      .error (.New "Source and target must be provided") ∧
    (SCPOptions.Parse getoptSet.Getopt NewSCPOptions
        ["scp".toList, "ap/99/99:remote.txt".toList]).2 ≠
      .error (.invalidHostIndexFormat "ap/99/99".toList) := by
  decide

/-- C16, amended: when option parsing succeeds and leaves at least two
positional arguments, and one of them fails `ParseLocation` while all before
it parse, `Parse` returns the error of that first failing argument and leaves
`Sources` and `Target` exactly as they were before the call. -/
theorem parse_bad_location (Getopt : SCPOptions → List Str → GetoptResult)
    (o : SCPOptions) (rest pre : List Str) (bad : Str) (post : List Str)
    (locs : List FileLocation) (err : GoError)
    (hopt : (Getopt o ("scp".toList :: rest)).err = none)
    (hargs : (Getopt o ("scp".toList :: rest)).Args = pre ++ bad :: post)
    (hlen : 2 ≤ (pre ++ bad :: post).length)
    (hpre : pre.map ParseLocation = locs.map Outcome.ok)
    (hbad : ParseLocation bad = .error err) :
    (SCPOptions.Parse Getopt o ("scp".toList :: rest)).2 = .error err ∧
    (SCPOptions.Parse Getopt o ("scp".toList :: rest)).1.Sources = o.Sources ∧
    (SCPOptions.Parse Getopt o ("scp".toList :: rest)).1.Target = o.Target := by
  have hloop := parseLocations_loop_error pre bad post err hbad [] locs hpre
  unfold SCPOptions.Parse
  rw [if_neg (by simp)]
  simp only [hopt, hargs, SCPOptions.parseLocations, hloop]
  rw [if_neg (by omega)]
  simp

/-- Instance of the amended C16 at `scp local.txt ap/99/99:remote.txt x`, on
options that already hold a source and a target. -/
theorem parse_bad_location_witness :
    (SCPOptions.Parse getoptSet.Getopt
        { Sources := [{ Path := "old".toList }], Target := { Path := "tgt".toList } }
        ("scp".toList :: ["local.txt".toList, "ap/99/99:remote.txt".toList, "x".toList])).2 =
      .error (.invalidHostIndexFormat "ap/99/99".toList) ∧
    (SCPOptions.Parse getoptSet.Getopt
        { Sources := [{ Path := "old".toList }], Target := { Path := "tgt".toList } }
        ("scp".toList :: ["local.txt".toList, "ap/99/99:remote.txt".toList,
          "x".toList])).1.Sources = [{ Path := "old".toList }] ∧
    (SCPOptions.Parse getoptSet.Getopt
        { Sources := [{ Path := "old".toList }], Target := { Path := "tgt".toList } }
        ("scp".toList :: ["local.txt".toList, "ap/99/99:remote.txt".toList,
          "x".toList])).1.Target = { Path := "tgt".toList } :=
  parse_bad_location getoptSet.Getopt
    { Sources := [{ Path := "old".toList }], Target := { Path := "tgt".toList } }
    ["local.txt".toList, "ap/99/99:remote.txt".toList, "x".toList]
    ["local.txt".toList] "ap/99/99:remote.txt".toList ["x".toList]
    [{ Path := "local.txt".toList }] (.invalidHostIndexFormat "ap/99/99".toList)
    (by decide) (by decide) (by decide) (by decide) (by decide)

theorem toUint_of_le (n : Nat) (h : n ≤ 2 ^ 32 - 1) : toUint n = n := by
  unfold toUint
  exact Nat.mod_eq_of_lt (by omega)

/-- C17: no wrap-around of the index.  For every successful `ParseLocation`
the index is at most `2^32 - 1`; when it is not zero, the host segment before
the first separator is `a/t` with a single `/`, and `t` is a non-empty string
of decimal digits whose value is exactly the index; and when `t` is a string
of digits whose value is `2^32` or more, the whole host segment is the app
name and the index is 0. -/
theorem parseLocation_index_no_wrap (arg : Str) (loc : FileLocation)
    (h : ParseLocation arg = .ok loc) :
    loc.Index ≤ 2 ^ 32 - 1 ∧
    (loc.Index ≠ 0 →
      ∃ k a t, FirstSeparator arg k ∧ arg.take k = a ++ "/".toList ++ t ∧
        '/' ∉ a ∧ '/' ∉ t ∧ t ≠ [] ∧ (∀ c ∈ t, c.isDigit = true) ∧
        digitsValue 0 t = loc.Index) ∧
    (∀ k a t, FirstSeparator arg k → arg.take k = a ++ "/".toList ++ t → '/' ∉ a →
      (∀ c ∈ t, c.isDigit = true) → 2 ^ 32 ≤ digitsValue 0 t →
      loc.AppName = arg.take k ∧ loc.Index = 0) := by
  have hfirst : loc.Index ≤ 2 ^ 32 - 1 ∧
      (loc.Index ≠ 0 →
        ∃ k a t, FirstSeparator arg k ∧ arg.take k = a ++ "/".toList ++ t ∧
          '/' ∉ a ∧ '/' ∉ t ∧ t ≠ [] ∧ (∀ c ∈ t, c.isDigit = true) ∧
          digitsValue 0 t = loc.Index) := by
    rcases ParseLocation_cases arg with ⟨_, hP⟩ | ⟨_, _, _, hP⟩ | ⟨_, _, _, _, _, _, _, _, hP⟩ |
      ⟨k, a, t, n, hk, hat, ha, ht, hpu, hP⟩ | ⟨_, _, _, _, hP⟩
    · rw [hP] at h
      cases h
      exact ⟨Nat.zero_le _, fun h0 => absurd rfl h0⟩
    · rw [hP] at h
      cases h
      exact ⟨Nat.zero_le _, fun h0 => absurd rfl h0⟩
    · rw [hP] at h
      cases h
      exact ⟨Nat.zero_le _, fun h0 => absurd rfl h0⟩
    · rw [hP] at h
      cases h
      obtain ⟨hne, hdig, hval, hle⟩ := (ParseUint_some_iff t n).1 hpu
      have hu := toUint_of_le n hle
      refine ⟨by simp only [hu]; exact hle, fun _ => ⟨k, a, t, hk, ?_, ha, ht, hne, hdig, ?_⟩⟩
      · rw [hat]; simp
      · simp only [hu]; exact hval
    · rw [hP] at h
      cases h
  refine ⟨hfirst.1, hfirst.2, ?_⟩
  intro k a t hk hat ha hdig hbig
  have ht : '/' ∉ t := fun hm => (isDigit_ne_special _ (hdig _ hm)).2.1 rfl
  have hat2 : arg.take k = a ++ '/' :: t := by rw [hat]; simp
  have hnone : strconv.ParseUint t 10 32 = none := by
    rcases hpu : strconv.ParseUint t 10 32 with _ | n
    · rfl
    · obtain ⟨_, _, hval, hle⟩ := (ParseUint_some_iff t n).1 hpu
      omega
  have hP := ParseLocation_of_firstSeparator arg k hk
  rw [hat2, splitHostIndex_one_slash a t ha ht, hnone] at hP
  rw [hP] at h
  cases h
  exact ⟨hat2.symm, rfl⟩

/-- Instance of C17 at `app/4294967295:y`, the largest index. -/
theorem parseLocation_index_no_wrap_witness :
    (4294967295 : Nat) ≤ 2 ^ 32 - 1 ∧
    ((4294967295 : Nat) ≠ 0 →
      ∃ k a t, FirstSeparator "app/4294967295:y".toList k ∧
        "app/4294967295:y".toList.take k = a ++ "/".toList ++ t ∧
        '/' ∉ a ∧ '/' ∉ t ∧ t ≠ [] ∧ (∀ c ∈ t, c.isDigit = true) ∧
        digitsValue 0 t = 4294967295) ∧
    (∀ k a t, FirstSeparator "app/4294967295:y".toList k →
      "app/4294967295:y".toList.take k = a ++ "/".toList ++ t → '/' ∉ a →
      (∀ c ∈ t, c.isDigit = true) → 2 ^ 32 ≤ digitsValue 0 t →
      "app".toList = "app/4294967295:y".toList.take k ∧ (4294967295 : Nat) = 0) :=
  parseLocation_index_no_wrap "app/4294967295:y".toList
    { AppName := "app".toList, Index := 4294967295, Path := "y".toList } (by decide)

/-- C18: the app segment is copied verbatim.  For every argument on which
`ParseLocation` succeeds the app name is a prefix of the argument; `\:` is
replaced in the path only, so in `a\:b:file` the escaped colon stays in the
app name together with its backslash. -/
theorem parseLocation_appName_prefix (arg : Str) (loc : FileLocation)
    (h : ParseLocation arg = .ok loc) :
    loc.AppName <+: arg ∧
    ParseLocation "a\\:b:file".toList =
      .ok { AppName := "a\\:b".toList, Index := 0, Path := "file".toList } := by
  refine ⟨?_, by decide⟩
  rcases ParseLocation_cases arg with ⟨_, hP⟩ | ⟨k, _, _, hP⟩ | ⟨k, _, _, _, _, _, _, _, hP⟩ |
    ⟨k, a, t, n, hk, hat, ha, ht, hpu, hP⟩ | ⟨_, _, _, _, hP⟩
  · rw [hP] at h
    cases h
    exact List.nil_prefix
  · rw [hP] at h
    cases h
    exact List.take_prefix k arg
  · rw [hP] at h
    cases h
    exact List.take_prefix k arg
  · rw [hP] at h
    cases h
    exact (List.prefix_append a ('/' :: t)).trans (hat ▸ List.take_prefix k arg)
  · rw [hP] at h
    cases h

/-- Instance of C18 at `a\:b/7:file`. -/
theorem parseLocation_appName_prefix_witness :
    "a\\:b".toList <+: "a\\:b/7:file".toList ∧
    ParseLocation "a\\:b:file".toList =
      .ok { AppName := "a\\:b".toList, Index := 0, Path := "file".toList } :=
  parseLocation_appName_prefix "a\\:b/7:file".toList
    { AppName := "a\\:b".toList, Index := 7, Path := "file".toList } (by decide)

/-- C19: a colon in first position is never a separator.  For every string
`s` in which every `:` is immediately preceded by a backslash, `ParseLocation`
of `:` followed by `s` returns no error and the local location whose path is
the whole argument with every `\:` replaced by `:`. -/
theorem parseLocation_leading_colon (s : Str)
    (h : ∀ i < s.length, s[i]? = some ':' → 1 ≤ i ∧ s[i - 1]? = some '\\') :
    ParseLocation (":".toList ++ s) =
      .ok { AppName := [], Index := 0,
            Path := strings.Replace (":".toList ++ s) "\\:".toList ":".toList } := by
  apply ParseLocation_of_no_separator
  rintro j ⟨hj, hc, hp⟩
  obtain ⟨i, rfl⟩ : ∃ i, j = i + 1 := ⟨j - 1, by omega⟩
  have hc2 : s[i]? = some ':' := by simpa using hc
  obtain ⟨hi, hb⟩ := h i (List.getElem?_eq_some.1 hc2).1 hc2
  obtain ⟨m, rfl⟩ : ∃ m, i = m + 1 := ⟨i - 1, by omega⟩
  apply hp
  simpa using hb

/-- Instance of C19 at `:x\:y`. -/
theorem parseLocation_leading_colon_witness :
    (∀ i < "x\\:y".toList.length,
      "x\\:y".toList[i]? = some ':' → 1 ≤ i ∧ "x\\:y".toList[i - 1]? = some '\\') ∧
    ParseLocation (":".toList ++ "x\\:y".toList) =
      .ok { AppName := [], Index := 0,
            Path := strings.Replace (":".toList ++ "x\\:y".toList) "\\:".toList ":".toList } :=
  ⟨by decide, parseLocation_leading_colon "x\\:y".toList (by decide)⟩

/-! ## The realm parser -/

theorem splitLastSlash_none_of_not_mem (t : Str) (h : '/' ∉ t) :
    RealmParser.splitLastSlash t = none := by
  induction t with
  | nil => rfl
  | cons c cs ih =>
    have hc : ¬ c = '/' := fun e => h (by simp [e])
    have hcs : '/' ∉ cs := fun e => h (List.mem_cons_of_mem _ e)
    rw [RealmParser.splitLastSlash, ih hcs]
    simp [hc]

theorem splitLastSlash_append (p t : Str) (h : '/' ∉ t) :
    RealmParser.splitLastSlash (p ++ '/' :: t) = some (p, t) := by
  induction p with
  | nil =>
    rw [List.nil_append, RealmParser.splitLastSlash, splitLastSlash_none_of_not_mem t h]
    simp
  | cons c cs ih =>
    rw [List.cons_append, RealmParser.splitLastSlash, ih]

theorem splitLastSlash_some (s : Str) :
    ∀ p t, RealmParser.splitLastSlash s = some (p, t) → s = p ++ '/' :: t := by
  induction s with
  | nil => intro p t h; cases h
  | cons c cs ih =>
    intro p t h
    rw [RealmParser.splitLastSlash] at h
    rcases hcs : RealmParser.splitLastSlash cs with _ | ⟨p2, t2⟩
    · rw [hcs] at h
      by_cases hc : c = '/'
      · simp [hc] at h
        obtain ⟨rfl, rfl⟩ := h
        simp [hc]
      · simp [hc] at h
    · rw [hcs] at h
      simp at h
      obtain ⟨rfl, rfl⟩ := h
      rw [ih p2 t2 hcs]
      simp

theorem parseIndex_decimal (n : Nat) : RealmParser.parseIndex (decimal n) = some n := by
  obtain ⟨hne, hdig, hval⟩ := decimal_spec n
  unfold RealmParser.parseIndex
  rw [if_pos ⟨hne, hdig⟩, hval]

theorem parseIndex_some (t : Str) (n : Nat) (h : RealmParser.parseIndex t = some n) :
    t ≠ [] ∧ ∀ c ∈ t, c.isDigit = true := by
  unfold RealmParser.parseIndex at h
  by_cases hc : t ≠ [] ∧ ∀ c ∈ t, c.isDigit = true
  · exact hc
  · rw [if_neg hc] at h
    cases h

theorem parsePrincipalIndex_serialized (p : Str) (n : Nat) :
    RealmParser.parsePrincipalIndex (p ++ '/' :: decimal n) = some (p, n) := by
  have hno : '/' ∉ decimal n := fun hm =>
    (isDigit_ne_special _ ((decimal_spec n).2.1 _ hm)).2.1 rfl
  unfold RealmParser.parsePrincipalIndex
  rw [splitLastSlash_append p (decimal n) hno]
  simp only []
  rw [parseIndex_decimal]

theorem parsePrincipalIndex_some (s p : Str) (n : Nat)
    (h : RealmParser.parsePrincipalIndex s = some (p, n)) :
    ∃ digits, s = p ++ '/' :: digits ∧ digits ≠ [] ∧ ∀ c ∈ digits, c.isDigit = true := by
  unfold RealmParser.parsePrincipalIndex at h
  rcases hs : RealmParser.splitLastSlash s with _ | ⟨p2, t⟩
  · rw [hs] at h; cases h
  · rw [hs] at h
    simp only [] at h
    rcases hi : RealmParser.parseIndex t with _ | m
    · rw [hi] at h; cases h
    · rw [hi] at h
      simp only [Option.some.injEq, Prod.mk.injEq] at h
      obtain ⟨rfl, _⟩ := h
      exact ⟨t, splitLastSlash_some s p2 t hs, parseIndex_some t m hi⟩

theorem tokenForm_serialized (token : Str) (realm : Realm) (p : Str) (n : Nat) :
    RealmParser.tokenForm token realm (token ++ ":".toList ++ p ++ "/".toList ++ decimal n) =
      some ⟨realm, p, n⟩ := by
  have hs : token ++ ":".toList ++ p ++ "/".toList ++ decimal n =
      (token ++ ":".toList) ++ (p ++ '/' :: decimal n) := by simp
  unfold RealmParser.tokenForm
  rw [hs, if_pos (List.isPrefixOf_iff_prefix.2 (List.prefix_append _ _)),
    List.drop_left, parsePrincipalIndex_serialized]

theorem tokenForm_some (token : Str) (realm : Realm) (s : Str) (a : RealmAddress)
    (h : RealmParser.tokenForm token realm s = some a) :
    ∃ p digits, s = token ++ ":".toList ++ p ++ "/".toList ++ digits ∧ digits ≠ [] ∧
      (∀ c ∈ digits, c.isDigit = true) ∧ a.realm = realm := by
  unfold RealmParser.tokenForm at h
  by_cases hp : (token ++ ":".toList).isPrefixOf s = true
  · rw [if_pos hp] at h
    obtain ⟨r, hr⟩ := List.isPrefixOf_iff_prefix.1 hp
    rcases hpi : RealmParser.parsePrincipalIndex
        (s.drop (token ++ ":".toList).length) with _ | ⟨p, n⟩
    · rw [hpi] at h; cases h
    · rw [hpi] at h
      simp only [Option.some.injEq] at h
      rw [← hr, List.drop_left] at hpi
      obtain ⟨digits, hd, hne, hdig⟩ := parsePrincipalIndex_some r p n hpi
      refine ⟨p, digits, ?_, hne, hdig, ?_⟩
      · rw [← hr, hd]; simp
      · rw [← h]
  · rw [if_neg hp] at h
    cases h

theorem tokenForm_userAt (token user rest : Str) (realm : Realm)
    (htok : '@' ∉ token) (huser : ':' ∉ user) :
    RealmParser.tokenForm token realm (user ++ '@' :: rest) = none := by
  have hpre : ∀ (tok u : Str), '@' ∉ tok → ':' ∉ u →
      (tok ++ [':']).isPrefixOf (u ++ '@' :: rest) = false := by
    intro tok
    induction tok with
    | nil =>
      intro u _ hu
      cases u with
      | nil => simp [List.isPrefixOf]
      | cons c u =>
        have hc : ¬ ':' = c := fun e => hu (by simp [← e])
        simp [List.isPrefixOf, hc]
    | cons t tok ih =>
      intro u ht hu
      cases u with
      | nil =>
        have hc : ¬ t = '@' := fun e => ht (by simp [e])
        simp [List.isPrefixOf, hc]
      | cons c u =>
        have h1 : '@' ∉ tok := fun e => ht (List.mem_cons_of_mem _ e)
        have h2 : ':' ∉ u := fun e => hu (List.mem_cons_of_mem _ e)
        have := ih u h1 h2
        show (t == c && List.isPrefixOf (tok ++ [':']) (u ++ '@' :: rest)) = false
        rw [this, Bool.and_false]
  unfold RealmParser.tokenForm
  have h := hpre token user htok huser
  have e : token ++ ":".toList = token ++ [':'] := rfl
  rw [e, h]
  simp

theorem splitFirstAt_append (u r : Str) (h : '@' ∉ u) :
    RealmParser.splitFirstAt (u ++ '@' :: r) = some (u, r) := by
  induction u with
  | nil => simp [RealmParser.splitFirstAt]
  | cons c cs ih =>
    have hc : ¬ c = '@' := fun e => h (by simp [e])
    have hcs : '@' ∉ cs := fun e => h (List.mem_cons_of_mem _ e)
    rw [List.cons_append, RealmParser.splitFirstAt, if_neg hc, ih hcs]

theorem splitFirstAt_some (s : Str) :
    ∀ u r, RealmParser.splitFirstAt s = some (u, r) → s = u ++ '@' :: r ∧ '@' ∉ u := by
  induction s with
  | nil => intro u r h; cases h
  | cons c cs ih =>
    intro u r h
    rw [RealmParser.splitFirstAt] at h
    by_cases hc : c = '@'
    · rw [if_pos hc] at h
      simp only [Option.some.injEq, Prod.mk.injEq] at h
      obtain ⟨rfl, rfl⟩ := h
      simp [hc]
    · rw [if_neg hc] at h
      rcases hcs : RealmParser.splitFirstAt cs with _ | ⟨u2, r2⟩
      · rw [hcs] at h; cases h
      · rw [hcs] at h
        simp only [Option.some.injEq, Prod.mk.injEq] at h
        obtain ⟨rfl, rfl⟩ := h
        obtain ⟨h1, h2⟩ := ih u2 r2 hcs
        refine ⟨by rw [h1]; simp, ?_⟩
        intro hm
        rcases List.mem_cons.1 hm with e | e
        · exact hc e.symm
        · exact h2 e

theorem splitUserAt_append (c : Char) (u r : Str) (h : '@' ∉ u) :
    RealmParser.splitUserAt (c :: (u ++ '@' :: r)) = some (c :: u, r) := by
  rw [RealmParser.splitUserAt, splitFirstAt_append u r h]

theorem splitUserAt_some (s user rest : Str)
    (h : RealmParser.splitUserAt s = some (user, rest)) :
    s = user ++ '@' :: rest ∧ ∃ c u, user = c :: u ∧ '@' ∉ u := by
  cases s with
  | nil => cases h
  | cons c cs =>
    rw [RealmParser.splitUserAt] at h
    rcases hcs : RealmParser.splitFirstAt cs with _ | ⟨u, r⟩
    · rw [hcs] at h; cases h
    · rw [hcs] at h
      simp only [Option.some.injEq, Prod.mk.injEq] at h
      obtain ⟨rfl, rfl⟩ := h
      obtain ⟨h1, h2⟩ := splitFirstAt_some cs u r hcs
      exact ⟨by rw [h1]; simp, c, u, rfl, h2⟩

theorem userAtForm_serialized (c : Char) (u p : Str) (n : Nat)
    (hcolon : ':' ∉ c :: u) (hat : '@' ∉ u) :
    RealmParser.userAtForm ((c :: u) ++ "@".toList ++ p ++ "/".toList ++ decimal n) =
      some ⟨.userAt (c :: u), p, n⟩ := by
  have hs : (c :: u) ++ "@".toList ++ p ++ "/".toList ++ decimal n =
      c :: (u ++ '@' :: (p ++ '/' :: decimal n)) := by simp
  unfold RealmParser.userAtForm
  rw [hs, splitUserAt_append c u _ hat]
  simp only []
  rw [if_pos ⟨List.cons_ne_nil _ _, hcolon⟩, parsePrincipalIndex_serialized]

theorem userAtForm_some (s : Str) (a : RealmAddress)
    (h : RealmParser.userAtForm s = some a) :
    ∃ user p digits, s = user ++ "@".toList ++ p ++ "/".toList ++ digits ∧ user ≠ [] ∧
      ':' ∉ user ∧ digits ≠ [] ∧ (∀ c ∈ digits, c.isDigit = true) ∧
      a.realm = .userAt user ∧ ∃ c u, user = c :: u ∧ '@' ∉ u := by
  unfold RealmParser.userAtForm at h
  rcases hs : RealmParser.splitUserAt s with _ | ⟨user, rest⟩
  · rw [hs] at h; cases h
  · rw [hs] at h
    simp only [] at h
    by_cases hu : user ≠ [] ∧ ':' ∉ user
    · rw [if_pos hu] at h
      rcases hpi : RealmParser.parsePrincipalIndex rest with _ | ⟨p, n⟩
      · rw [hpi] at h; cases h
      · rw [hpi] at h
        simp only [Option.some.injEq] at h
        obtain ⟨digits, hd, hne, hdig⟩ := parsePrincipalIndex_some rest p n hpi
        obtain ⟨hcut, hshape⟩ := splitUserAt_some s user rest hs
        refine ⟨user, p, digits, ?_, hu.1, hu.2, hne, hdig, ?_, hshape⟩
        · rw [hcut, hd]; simp
        · rw [← h]
    · rw [if_neg hu] at h
      cases h

/-- Every string the realm parser accepts has one of the forms of 4.A. -/
theorem matches_of_parse (s : Str) (a : RealmAddress) (h : RealmParser.parse s = some a) :
    MatchesRealmForm s := by
  unfold RealmParser.parse at h
  rcases h1 : RealmParser.tokenForm "diego".toList .diego s with _ | a1
  · rw [h1] at h
    simp only [] at h
    rcases h2 : RealmParser.tokenForm "cf".toList .cf s with _ | a2
    · rw [h2] at h
      simp only [] at h
      obtain ⟨user, p, digits, hs, hne, hc, hdne, hdig, _⟩ := userAtForm_some s a h
      exact ⟨p, digits, hdne, hdig, Or.inr (Or.inr ⟨user, hne, hc, hs⟩)⟩
    · obtain ⟨p, digits, hs, hdne, hdig, _⟩ := tokenForm_some _ _ s a2 h2
      exact ⟨p, digits, hdne, hdig, Or.inr (Or.inl hs)⟩
  · obtain ⟨p, digits, hs, hdne, hdig, _⟩ := tokenForm_some _ _ s a1 h1
    exact ⟨p, digits, hdne, hdig, Or.inl hs⟩

theorem parsePrincipalIndex_of_digits (x digits : Str) (hne : digits ≠ [])
    (hdig : ∀ c ∈ digits, c.isDigit = true) :
    RealmParser.parsePrincipalIndex (x ++ '/' :: digits) = some (x, digitsValue 0 digits) := by
  have hno : '/' ∉ digits := fun hm => (isDigit_ne_special _ (hdig _ hm)).2.1 rfl
  unfold RealmParser.parsePrincipalIndex
  rw [splitLastSlash_append x digits hno]
  simp only []
  unfold RealmParser.parseIndex
  rw [if_pos ⟨hne, hdig⟩]

theorem tokenForm_of_form (token : Str) (realm : Realm) (p digits : Str)
    (hne : digits ≠ []) (hdig : ∀ c ∈ digits, c.isDigit = true) :
    RealmParser.tokenForm token realm (token ++ ":".toList ++ p ++ "/".toList ++ digits) =
      some ⟨realm, p, digitsValue 0 digits⟩ := by
  have hs : token ++ ":".toList ++ p ++ "/".toList ++ digits =
      (token ++ ":".toList) ++ (p ++ '/' :: digits) := by simp
  unfold RealmParser.tokenForm
  rw [hs, if_pos (List.isPrefixOf_iff_prefix.2 (List.prefix_append _ _)),
    List.drop_left, parsePrincipalIndex_of_digits p digits hne hdig]

theorem splitFirstAt_of_form (digits : Str) :
    ∀ (w R : Str), ':' ∉ w → (∃ x, R = x ++ '/' :: digits) →
      ∃ u r, RealmParser.splitFirstAt (w ++ '@' :: R) = some (u, r) ∧ ':' ∉ u ∧
        ∃ x, r = x ++ '/' :: digits := by
  intro w
  induction w with
  | nil =>
    intro R _ hR
    exact ⟨[], R, by simp [RealmParser.splitFirstAt], by simp, hR⟩
  | cons d w ih =>
    intro R hw hR
    have hw2 : ':' ∉ w := fun e => hw (List.mem_cons_of_mem _ e)
    by_cases hd : d = '@'
    · obtain ⟨x, rfl⟩ := hR
      refine ⟨[], w ++ '@' :: (x ++ '/' :: digits), ?_, by simp, w ++ '@' :: x, by simp⟩
      rw [List.cons_append, RealmParser.splitFirstAt, if_pos hd]
    · obtain ⟨u, r, h1, h2, h3⟩ := ih R hw2 hR
      refine ⟨d :: u, r, ?_, ?_, h3⟩
      · rw [List.cons_append, RealmParser.splitFirstAt, if_neg hd, h1]
      · intro hm
        rcases List.mem_cons.1 hm with e | e
        · exact hw (by rw [← e]; exact List.mem_cons_self _ _)
        · exact h2 e

theorem userAtForm_of_form (user p digits : Str) (hu : user ≠ []) (hc : ':' ∉ user)
    (hne : digits ≠ []) (hdig : ∀ c ∈ digits, c.isDigit = true) :
    ∃ a, RealmParser.userAtForm (user ++ "@".toList ++ p ++ "/".toList ++ digits) = some a := by
  cases user with
  | nil => exact absurd rfl hu
  | cons c w =>
    have hs : (c :: w) ++ "@".toList ++ p ++ "/".toList ++ digits =
        c :: (w ++ '@' :: (p ++ '/' :: digits)) := by simp
    have hw : ':' ∉ w := fun e => hc (List.mem_cons_of_mem _ e)
    obtain ⟨u, r, h1, h2, x, rfl⟩ :=
      splitFirstAt_of_form digits w (p ++ '/' :: digits) hw ⟨p, rfl⟩
    have hcu : ':' ∉ c :: u := by
      intro hm
      rcases List.mem_cons.1 hm with e | e
      · exact hc (by rw [← e]; exact List.mem_cons_self _ _)
      · exact h2 e
    refine ⟨⟨.userAt (c :: u), x, digitsValue 0 digits⟩, ?_⟩
    unfold RealmParser.userAtForm
    rw [hs, RealmParser.splitUserAt, h1]
    simp only []
    rw [if_pos ⟨List.cons_ne_nil _ _, hcu⟩, parsePrincipalIndex_of_digits x digits hne hdig]

/-- Every string of one of the forms of 4.A is accepted by the realm parser. -/
theorem parse_of_matches (s : Str) (h : MatchesRealmForm s) :
    ∃ a, RealmParser.parse s = some a := by
  obtain ⟨p, digits, hne, hdig, hform⟩ := h
  unfold RealmParser.parse
  rcases h1 : RealmParser.tokenForm "diego".toList .diego s with _ | a1
  · simp only []
    rcases h2 : RealmParser.tokenForm "cf".toList .cf s with _ | a2
    · simp only []
      rcases hform with hs | hs | ⟨user, hu, hc, hs⟩
      · have := tokenForm_of_form "diego".toList .diego p digits hne hdig
        have e : "diego".toList ++ ":".toList = "diego:".toList := rfl
        rw [e, ← hs, h1] at this
        cases this
      · have := tokenForm_of_form "cf".toList .cf p digits hne hdig
        have e : "cf".toList ++ ":".toList = "cf:".toList := rfl
        rw [e, ← hs, h2] at this
        cases this
      · rw [hs]
        exact userAtForm_of_form user p digits hu hc hne hdig
    · exact ⟨a2, rfl⟩
  · exact ⟨a1, rfl⟩

/-- The shape of a valid address: in the user-at form the user is non-empty,
holds no `:`, and holds no `@` after its first character. -/
theorem valid_shape (a : RealmAddress) (hv : a.Valid) :
    a.realm = .diego ∨ a.realm = .cf ∨
      ∃ c u, a.realm = .userAt (c :: u) ∧ ':' ∉ c :: u ∧ '@' ∉ u := by
  obtain ⟨s, h⟩ := hv
  unfold RealmParser.parse at h
  rcases h1 : RealmParser.tokenForm "diego".toList .diego s with _ | a1
  · rw [h1] at h
    simp only [] at h
    rcases h2 : RealmParser.tokenForm "cf".toList .cf s with _ | a2
    · rw [h2] at h
      simp only [] at h
      obtain ⟨user, _, _, _, _, hc, _, _, hr, c, u, rfl, hat⟩ := userAtForm_some s a h
      exact Or.inr (Or.inr ⟨c, u, hr, hc, hat⟩)
    · rw [h2] at h
      simp only [Option.some.injEq] at h
      obtain ⟨_, _, _, _, _, hr⟩ := tokenForm_some _ _ s a2 h2
      exact Or.inr (Or.inl (h ▸ hr))
  · rw [h1] at h
    simp only [Option.some.injEq] at h
    obtain ⟨_, _, _, _, _, hr⟩ := tokenForm_some _ _ s a1 h1
    exact Or.inl (h ▸ hr)

theorem enabled_eq_false_of_flag (cfg : ProxyConfig) (realm : Realm)
    (h : realm.enableFlag cfg = false) : realm.enabled cfg = false := by
  cases realm with
  | diego => exact h
  | cf =>
    have h2 : cfg.enableCFAuth = false := h
    simp [Realm.enabled, h2]
  | userAt u =>
    have h2 : cfg.enableCFAuth = false := h
    simp [Realm.enabled, h2]

/-- An address of the shape of a valid one is what the realm parser yields for
its canonical user form. -/
theorem parse_serialize_of_shape (a : RealmAddress)
    (hshape : a.realm = .diego ∨ a.realm = .cf ∨
      ∃ c u, a.realm = .userAt (c :: u) ∧ ':' ∉ c :: u ∧ '@' ∉ u) :
    RealmParser.parse a.serialize = some a := by
  obtain ⟨realm, p, n⟩ := a
  rcases hshape with hr | hr | ⟨c, u, hr, hcolon, hat⟩
  · have hr2 : realm = .diego := hr
    subst hr2
    have h := tokenForm_serialized "diego".toList .diego p n
    have e : RealmAddress.serialize ⟨.diego, p, n⟩ =
        "diego".toList ++ ":".toList ++ p ++ "/".toList ++ decimal n := rfl
    rw [e, RealmParser.parse, h]
  · have hr2 : realm = .cf := hr
    subst hr2
    have h := tokenForm_serialized "cf".toList .cf p n
    have e : RealmAddress.serialize ⟨.cf, p, n⟩ =
        "cf".toList ++ ":".toList ++ p ++ "/".toList ++ decimal n := rfl
    have h1 : RealmParser.tokenForm "diego".toList .diego
        ("cf".toList ++ ":".toList ++ p ++ "/".toList ++ decimal n) = none := by
      have e2 : "cf".toList ++ ":".toList ++ p ++ "/".toList ++ decimal n =
          'c' :: ('f' :: ':' :: (p ++ "/".toList ++ decimal n)) := by simp
      have e3 : "diego".toList ++ ":".toList = 'd' :: "iego:".toList := rfl
      rw [e2, RealmParser.tokenForm, e3]
      simp [List.isPrefixOf]
    rw [e, RealmParser.parse, h1]
    simp only []
    rw [h]
  · have hr2 : realm = .userAt (c :: u) := hr
    subst hr2
    have e : RealmAddress.serialize ⟨.userAt (c :: u), p, n⟩ =
        (c :: u) ++ "@".toList ++ p ++ "/".toList ++ decimal n := rfl
    have hs : (c :: u) ++ "@".toList ++ p ++ "/".toList ++ decimal n =
        (c :: u) ++ '@' :: (p ++ '/' :: decimal n) := by simp
    have h1 := tokenForm_userAt "diego".toList (c :: u) (p ++ '/' :: decimal n) .diego
      (by decide) hcolon
    have h2 := tokenForm_userAt "cf".toList (c :: u) (p ++ '/' :: decimal n) .cf
      (by decide) hcolon
    have h3 := userAtForm_serialized c u p n hcolon hat
    rw [hs] at h3
    rw [e, hs, RealmParser.parse, h1]
    simp only []
    rw [h2]
    simp only []
    rw [h3]

/-- An address is valid exactly when it has the shape of `valid_shape`: every
`diego` and `cf` address is, whatever its principal and index. -/
theorem valid_iff_shape (a : RealmAddress) :
    a.Valid ↔ (a.realm = .diego ∨ a.realm = .cf ∨
      ∃ c u, a.realm = .userAt (c :: u) ∧ ':' ∉ c :: u ∧ '@' ∉ u) :=
  ⟨valid_shape a, fun h => ⟨a.serialize, parse_serialize_of_shape a h⟩⟩

/-! ## The claims about the SSH proxy -/

/-- C12: realm isolation.  For every user field that the realm parser
recognises and whose enable flag is false (`enableDiegoAuth` for `diego`,
`enableCFAuth` for `cf` and for the user-at form), the password authentication
fails and no request is made to the cluster state, app authorization or token
exchange service. -/
theorem realm_isolation (cfg : ProxyConfig) (svc : Services) (user password : Str)
    (addr : RealmAddress) (hparse : RealmParser.parse user = some addr)
    (hflag : addr.realm.enableFlag cfg = false) :
    (Dispatcher.Authenticate cfg svc user password).descriptor = none ∧
    (Dispatcher.Authenticate cfg svc user password).requests = [] := by
  have hen := enabled_eq_false_of_flag cfg addr.realm hflag
  unfold Dispatcher.Authenticate
  rw [hparse]
  simp only []
  rw [if_pos hen]
  exact ⟨rfl, rfl⟩

/-- Instance of C12 at the user `diego:process-guid/0` with `enableDiegoAuth`
off and services that would answer every lookup. -/
theorem realm_isolation_witness :
    (RealmParser.parse "diego:process-guid/0".toList =
        some ⟨.diego, "process-guid".toList, 0⟩ ∧
      Realm.enableFlag ⟨false, true, none, none, "vcap".toList⟩ Realm.diego = false) ∧
    (Dispatcher.Authenticate ⟨false, true, none, none, "vcap".toList⟩
        ⟨fun _ => some ⟨9999, "key".toList, "fp".toList⟩,
         fun g i => some ⟨g, i, "guid".toList, "127.0.0.1".toList, [(9999, 2222)]⟩,
         fun _ _ => some "process-guid".toList,
         fun _ _ => some ⟨"access-token".toList, "bearer".toList⟩⟩
        "diego:process-guid/0".toList []).descriptor = none ∧
    (Dispatcher.Authenticate ⟨false, true, none, none, "vcap".toList⟩
        ⟨fun _ => some ⟨9999, "key".toList, "fp".toList⟩,
         fun g i => some ⟨g, i, "guid".toList, "127.0.0.1".toList, [(9999, 2222)]⟩,
         fun _ _ => some "process-guid".toList,
         fun _ _ => some ⟨"access-token".toList, "bearer".toList⟩⟩
        "diego:process-guid/0".toList []).requests = [] :=
  ⟨⟨by decide, rfl⟩,
    realm_isolation ⟨false, true, none, none, "vcap".toList⟩
      ⟨fun _ => some ⟨9999, "key".toList, "fp".toList⟩,
       fun g i => some ⟨g, i, "guid".toList, "127.0.0.1".toList, [(9999, 2222)]⟩,
       fun _ _ => some "process-guid".toList,
       fun _ _ => some ⟨"access-token".toList, "bearer".toList⟩⟩
      "diego:process-guid/0".toList [] ⟨.diego, "process-guid".toList, 0⟩ (by decide) rfl⟩

/-- C13: realm parser round trip.  For every valid `RealmAddress`, that is
every address the realm parser yields for some user field (realm `diego`, `cf`
or user-at, with its principal and its non-negative index), parsing its
canonical user form yields the same address. -/
theorem realm_roundtrip (a : RealmAddress) (hv : a.Valid) :
    RealmParser.parse a.serialize = some a := by
  have hshape := valid_shape a hv
  exact parse_serialize_of_shape a hshape

/-- Instance of C13 at the address parsed from `ssh-client@app-guid/007`, whose
canonical form is `ssh-client@app-guid/7`. -/
theorem realm_roundtrip_witness :
    (RealmAddress.mk (.userAt "ssh-client".toList) "app-guid".toList 7).Valid ∧
    RealmParser.parse
        (RealmAddress.mk (.userAt "ssh-client".toList) "app-guid".toList 7).serialize =
      some (RealmAddress.mk (.userAt "ssh-client".toList) "app-guid".toList 7) :=
  ⟨⟨"ssh-client@app-guid/007".toList, by decide⟩,
    realm_roundtrip ⟨.userAt "ssh-client".toList, "app-guid".toList, 7⟩
      ⟨"ssh-client@app-guid/007".toList, by decide⟩⟩

/-- C14: for every SSH user string that matches neither
`<diego|cf>:<principal>/<index>` nor `<user>@<principal>/<index>` with a
non-negative decimal index, the realm parser rejects it and the dispatcher
fails the password authentication, without any request. -/
theorem realm_parser_rejects (cfg : ProxyConfig) (svc : Services) (user password : Str)
    (h : ¬ MatchesRealmForm user) :
    RealmParser.parse user = none ∧
    (Dispatcher.Authenticate cfg svc user password).descriptor = none ∧
    (Dispatcher.Authenticate cfg svc user password).requests = [] := by
  have hnone : RealmParser.parse user = none := by
    rcases hp : RealmParser.parse user with _ | a
    · rfl
    · exact absurd (matches_of_parse user a hp) h
  refine ⟨hnone, ?_, ?_⟩
  · unfold Dispatcher.Authenticate
    rw [hnone]
  · unfold Dispatcher.Authenticate
    rw [hnone]

/-- Instance of C14 at the user `cf-user`, which holds no `/`. -/
theorem realm_parser_rejects_witness :
    ¬ MatchesRealmForm "cf-user".toList ∧
    (RealmParser.parse "cf-user".toList = none ∧
      (Dispatcher.Authenticate ⟨true, true, none, none, "vcap".toList⟩
          ⟨fun _ => none, fun _ _ => none, fun _ _ => none, fun _ _ => none⟩
          "cf-user".toList []).descriptor = none ∧
      (Dispatcher.Authenticate ⟨true, true, none, none, "vcap".toList⟩
          ⟨fun _ => none, fun _ _ => none, fun _ _ => none, fun _ _ => none⟩
          "cf-user".toList []).requests = []) := by
  have hno : ¬ MatchesRealmForm "cf-user".toList := by
    rintro ⟨principal, digits, _, _, h | h | ⟨user, _, _, h⟩⟩
    all_goals
      have hm : '/' ∈ "cf-user".toList := by rw [h]; simp
      exact absurd hm (by decide)
  exact ⟨hno, realm_parser_rejects ⟨true, true, none, none, "vcap".toList⟩
    ⟨fun _ => none, fun _ _ => none, fun _ _ => none, fun _ _ => none⟩
    "cf-user".toList [] hno⟩

end DiegoSSH
